import Mathlib

/-!
Shallow embedding of the mkavl multi-key AVL tree library (src/mkavl.c,
src/mkavl.h) and proofs about it.

Modelling conventions:
* The balanced-tree primitive (libavl, an external collaborator of this
  repository that is assumed correct) is modelled as a plain binary search
  tree: rotations do not change the stored set, the in-order sequence, nor
  which item an insert/delete/find returns, so they are omitted.  The
  directional search functions of mkavl.c recurse over the raw node
  structure and are embedded verbatim; they only ever rely on the binary
  search tree invariant, which rebalancing preserves.
* C pointers that may be NULL are modelled as Option values; the NULL
  checks of the source become matches on none.  Out-parameter pointers
  (for example the location that receives a found item) are modelled as a
  Bool flag saying whether the pointer is non-NULL, and the value the
  source would store through the pointer is returned instead.
* Items are compared by the caller-supplied comparators; pointer identity
  of items in the C code becomes value equality (DecidableEq).
* mkavl_assert_abort, which calls abort() on an internal consistency
  failure, is modelled by an Option result at the top level of the
  operations that can reach such an assert: none means the process
  aborted.
* Allocation is modelled as infallible except where a claim is explicitly
  about an allocation-failure path (mkavl_copy takes a flag modelling a
  failed avl_copy).
* The client context is opaque; only its NULL-ness is ever observable, so
  it is modelled as Option Unit.
-/

namespace Mkavl

/-- Return codes, mirroring mkavl_rc_e of src/mkavl.h (MKAVL_RC_E_INVALID,
SUCCESS, EINVAL, ENOMEM, EOOSYNC, MAX). -/
inductive mkavl_rc_e where
  | invalid
  | success
  | einval
  | enomem
  | eoosync
  | max
deriving DecidableEq, Repr

/-- mkavl_rc_e_is_notok from mkavl.c: every code other than SUCCESS. -/
def mkavl_rc_e_is_notok (rc : mkavl_rc_e) : Bool :=
  rc != .success

/-- mkavl_rc_e_is_ok from mkavl.c. -/
def mkavl_rc_e_is_ok (rc : mkavl_rc_e) : Bool :=
  rc == .success

/-- Find types, mirroring mkavl_find_type_e of src/mkavl.h. -/
inductive mkavl_find_type_e where
  | invalid
  | equal
  | gt
  | lt
  | ge
  | le
  | max
deriving DecidableEq, Repr

/-- mkavl_find_type_e_is_valid of mkavl.c accepts every value between
MKAVL_FIND_TYPE_E_INVALID (the first enumerator) and MKAVL_FIND_TYPE_E_MAX
(the last), hence every value of the enumeration. -/
def mkavl_find_type_e_is_valid (_ : mkavl_find_type_e) : Bool :=
  true

/-- A binary search tree node (struct avl_node of libavl): left child,
stored item, right child.  Balance information is omitted (see the header
comment). -/
inductive AvlTree (α : Type u) where
  | nil
  | node (l : AvlTree α) (x : α) (r : AvlTree α)
deriving DecidableEq, Repr

namespace AvlTree

/-- The in-order item sequence of the tree: the order in which a libavl
traverser (avl_t_first / avl_t_next) yields the items. -/
def inorder : AvlTree α → List α
  | nil => []
  | node l x r => inorder l ++ x :: inorder r

end AvlTree

/-- avl_count of libavl: the number of items in the tree. -/
def avl_count (t : AvlTree α) : Nat :=
  t.inorder.length

/-- avl_t_first of libavl: the least item of the tree (the first item of
the in-order sequence), or none for an empty tree. -/
def avl_t_first (t : AvlTree α) : Option α :=
  t.inorder.head?

/-- avl_insert of libavl (via avl_probe): descend using the comparator; if
an equal item is already present return it and leave the tree unchanged,
otherwise insert the item at the leaf position reached and return NULL
(none).  Returns (existing item, resulting tree). -/
def avl_insert (cmp : α → α → Int) (x : α) : AvlTree α → Option α × AvlTree α
  | .nil => (none, .node .nil x .nil)
  | .node l y r =>
    let c := cmp x y
    if c < 0 then
      let p := avl_insert cmp x l
      (p.1, .node p.2 y r)
    else if 0 < c then
      let p := avl_insert cmp x r
      (p.1, .node l y p.2)
    else
      (some y, .node l y r)

/-- Helper for avl_delete: detach the least item of a tree.  Returns none
for the empty tree. -/
def pullMin : AvlTree α → Option (α × AvlTree α)
  | .nil => none
  | .node l x r =>
    match pullMin l with
    | none => some (x, r)
    | some p => some (p.1, .node p.2 x r)

/-- avl_delete of libavl: descend using the comparator; if an item equal
to the probe is found remove it from the tree and return it, otherwise
return NULL (none) and leave the tree unchanged.  The removed node is
replaced by the least item of its right subtree (any replacement policy
yields the same stored set and is observationally equivalent for the
claims considered).  Returns (found item, resulting tree). -/
def avl_delete (cmp : α → α → Int) (x : α) : AvlTree α → Option α × AvlTree α
  | .nil => (none, .nil)
  | .node l y r =>
    let c := cmp x y
    if c < 0 then
      let p := avl_delete cmp x l
      (p.1, .node p.2 y r)
    else if 0 < c then
      let p := avl_delete cmp x r
      (p.1, .node l y p.2)
    else
      match pullMin r with
      | none => (some y, l)
      | some p => (some y, .node l p.1 p.2)

/-- avl_find of libavl: exact-match lookup by the comparator. -/
def avl_find (cmp : α → α → Int) (x : α) : AvlTree α → Option α
  | .nil => none
  | .node l y r =>
    let c := cmp x y
    if c < 0 then avl_find cmp x l
    else if 0 < c then avl_find cmp x r
    else some y

/-- avl_copy of libavl restricted to its success path: a structure-
preserving copy applying the item transform to every node exactly once. -/
def avl_copy (f : α → α) : AvlTree α → AvlTree α
  | .nil => .nil
  | .node l x r => .node (avl_copy f l) (f x) (avl_copy f r)

/-- mkavl_avl_end_item of mkavl.c with side = 0 (mkavl_avl_first): descend
to the leftmost node of the subtree and return its item; none when the
subtree is empty. -/
def mkavl_avl_first : AvlTree α → Option α
  | .nil => none
  | .node .nil x _ => some x
  | .node (.node a y b) _ _ => mkavl_avl_first (.node a y b)

/-- mkavl_avl_end_item of mkavl.c with side = 1 (mkavl_avl_last): descend
to the rightmost node of the subtree and return its item; none when the
subtree is empty. -/
def mkavl_avl_last : AvlTree α → Option α
  | .nil => none
  | .node _ x .nil => some x
  | .node _ _ (.node a y b) => mkavl_avl_last (.node a y b)

/-- mkavl_find_avl_lt of mkavl.c: find the largest item less than (or, when
find_equal_to is set, equal to) lookup_item.  The NULL-pointer checks of
the source concern the found_item out-pointer, the lookup pointer and the
tree pointer, which are plain values here; on those inputs the embedded
callers below return EINVAL before reaching this function, and the
recursion itself can then never produce a non-success code. -/
def mkavl_find_avl_lt (cmp : α → α → Int) (find_equal_to : Bool)
    (lookup_item : α) : AvlTree α → Option α
  | .nil => none
  | .node l x r =>
    let cmp_rc := cmp x lookup_item
    if cmp_rc < 0 then
      match mkavl_find_avl_lt cmp find_equal_to lookup_item r with
      | none => some x
      | some y => some y
    else if 0 < cmp_rc then
      mkavl_find_avl_lt cmp find_equal_to lookup_item l
    else if find_equal_to then some x
    else mkavl_avl_last l

/-- mkavl_find_avl_gt of mkavl.c: find the smallest item greater than (or,
when find_equal_to is set, equal to) lookup_item. -/
def mkavl_find_avl_gt (cmp : α → α → Int) (find_equal_to : Bool)
    (lookup_item : α) : AvlTree α → Option α
  | .nil => none
  | .node l x r =>
    let cmp_rc := cmp x lookup_item
    if cmp_rc < 0 then
      mkavl_find_avl_gt cmp find_equal_to lookup_item r
    else if 0 < cmp_rc then
      match mkavl_find_avl_gt cmp find_equal_to lookup_item l with
      | none => some x
      | some y => some y
    else if find_equal_to then some x
    else mkavl_avl_first r

/-- One entry of the avl_tree_array: mkavl_avl_tree_st of mkavl.c (the AVL
tree of the index and its bound comparator; the avl_ctx back-reference is
a closure artifact with no observable content). -/
structure AvlIdx (α : Type u) where
  cmp : α → α → Int
  tree : AvlTree α

/-- mkavl_tree_st of mkavl.c: the client context (only its NULL-ness is
observable), the per-index AVL trees with their comparators
(avl_tree_count is the length of the array), and the live item count.
The allocator and the transient copy_fn field are part of the allocation
and copy machinery and carry no further observable state in the model. -/
structure MkavlTree (α : Type u) where
  context : Option Unit
  avl_tree_array : List (AvlIdx α)
  item_count : Nat

/-- mkavl_tree_is_valid of mkavl.c on a handle that may be NULL: the
handle must be non-NULL and avl_tree_count non-zero.  The remaining
checks of the source (magic numbers, non-NULL per-index tree, comparator
and context pointers, allocator validity) hold by construction in the
model. -/
def mkavl_tree_is_valid : Option (MkavlTree α) → Bool
  | none => false
  | some t => t.avl_tree_array.length != 0

/-- MKAVL_RUNAWAY_SANITY of mkavl.c. -/
def MKAVL_RUNAWAY_SANITY : Nat := 100000

/-- mkavl_new of mkavl.c.  Arguments: whether the tree_h out-pointer is
non-NULL, the comparator array (NULL array, or NULL entries, are possible)
whose length plays the role of compare_fn_array_count, and the client
context.  Allocation of the aggregate, the index array and the per-index
contexts is modelled as succeeding.  The source loop copies the
comparators one by one and jumps to the error exit at the first NULL
entry with rc = MKAVL_RC_E_ENOMEM; observably this equals testing whether
any entry is NULL.  The error exit frees everything allocated so far and
leaves *tree_h = NULL, so the result handle is none.  Returns
(rc, value left in *tree_h). -/
def mkavl_new (tree_h_ptr : Bool)
    (compare_fn_array : Option (List (Option (α → α → Int))))
    (context : Option Unit) : mkavl_rc_e × Option (MkavlTree α) :=
  match tree_h_ptr, compare_fn_array with
  | false, _ => (.einval, none)
  | true, none => (.einval, none)
  | true, some fns =>
    if fns.length = 0 then (.einval, none)
    else if fns.any (fun c => c.isNone) then (.enomem, none)
    else
      (.success, some { context := context,
                        avl_tree_array :=
                          (fns.filterMap id).map
                            (fun cf => { cmp := cf, tree := .nil }),
                        item_count := 0 })

/-- mkavl_find of mkavl.c.  Arguments: the tree handle, the find type, the
key index, the lookup item (NULL possible) and whether the found_item
out-pointer is non-NULL.  Returns (rc, value left in *found_item).  The
switch dispatches to avl_find for Equal and to the directional searches
otherwise; Invalid and Max hit the default branch and yield EINVAL. -/
def mkavl_find (tree_h : Option (MkavlTree α)) (type : mkavl_find_type_e)
    (key_idx : Nat) (lookup_item : Option α) (found_item_ptr : Bool) :
    mkavl_rc_e × Option α :=
  match lookup_item, found_item_ptr with
  | none, _ => (.einval, none)
  | some _, false => (.einval, none)
  | some key, true =>
    if ¬ mkavl_find_type_e_is_valid type then (.einval, none)
    else if ¬ mkavl_tree_is_valid tree_h then (.einval, none)
    else
      match tree_h with
      | none => (.einval, none)
      | some t =>
        if h : key_idx < t.avl_tree_array.length then
          let idx := t.avl_tree_array.get ⟨key_idx, h⟩
          match type with
          | .equal => (.success, avl_find idx.cmp key idx.tree)
          | .gt => (.success, mkavl_find_avl_gt idx.cmp false key idx.tree)
          | .ge => (.success, mkavl_find_avl_gt idx.cmp true key idx.tree)
          | .lt => (.success, mkavl_find_avl_lt idx.cmp false key idx.tree)
          | .le => (.success, mkavl_find_avl_lt idx.cmp true key idx.tree)
          | _ => (.einval, none)
        else (.einval, none)

/-- The insertion loop of mkavl_add over the indices after the first:
insert into each tree in order; as long as the existing-item result equals
the one of index 0 keep going, at the first disagreement stop (the
mismatching index has already had its insert performed, and err_idx =
i + 1 makes the rollback cover it).  Returns (processed entries with the
inserts applied, whether every index agreed, unprocessed tail). -/
def mkavl_add_scan [DecidableEq α] (x : α) (first_item : Option α) :
    List (AvlIdx α) → List (AvlIdx α) × Bool × List (AvlIdx α)
  | [] => ([], true, [])
  | idx :: rest =>
    let p := avl_insert idx.cmp x idx.tree
    if p.1 = first_item then
      let s := mkavl_add_scan x first_item rest
      ({ cmp := idx.cmp, tree := p.2 } :: s.1, s.2.1, s.2.2)
    else
      ([{ cmp := idx.cmp, tree := p.2 }], false, rest)

/-- The error-exit loop of mkavl_add for the case first_item == NULL:
delete the added item from every index up to err_idx (the processed
prefix, the mismatching index included); mkavl_assert_abort fires (none)
if a delete finds nothing. -/
def mkavl_add_rollback [DecidableEq α] (x : α) :
    List (AvlIdx α) → Option (List (AvlIdx α))
  | [] => some []
  | idx :: rest =>
    let p := avl_delete idx.cmp x idx.tree
    match p.1 with
    | none => none
    | some _ =>
      (mkavl_add_rollback x rest).map
        (fun l => { cmp := idx.cmp, tree := p.2 } :: l)

/-- mkavl_add of mkavl.c.  Arguments: the tree handle, the item to add
(NULL possible) and whether the existing_item out-pointer is non-NULL.
Inserts the item into every index in order; all indices must report the
same pre-existing item (NULL when the item was new).  On agreement the
live count is incremented exactly once when the item was new.  On
disagreement rc = EOOSYNC and, only when index 0 reported no existing
item, the rollback loop deletes the item from every index of the
processed prefix; *existing_item keeps the NULL stored on entry.  The
outer Option is the abort channel of mkavl_assert_abort.  Returns
some (rc, resulting tree handle, value left in *existing_item). -/
def mkavl_add [DecidableEq α] (tree_h : Option (MkavlTree α))
    (item_to_add : Option α) (existing_item_ptr : Bool) :
    Option (mkavl_rc_e × Option (MkavlTree α) × Option α) :=
  match item_to_add, existing_item_ptr with
  | none, _ => some (.einval, tree_h, none)
  | some _, false => some (.einval, tree_h, none)
  | some x, true =>
    if ¬ mkavl_tree_is_valid tree_h then some (.einval, tree_h, none)
    else
      match tree_h with
      | none => some (.einval, none, none)
      | some t =>
        match t.avl_tree_array with
        | [] => some (.einval, some t, none)
        | idx0 :: rest =>
          let p0 := avl_insert idx0.cmp x idx0.tree
          let first_item := p0.1
          let s := mkavl_add_scan x first_item rest
          let processed : List (AvlIdx α) :=
            { cmp := idx0.cmp, tree := p0.2 } :: s.1
          if s.2.1 then
            some (.success,
                  some { t with
                         avl_tree_array := processed ++ s.2.2,
                         item_count :=
                           if first_item = none then t.item_count + 1
                           else t.item_count },
                  first_item)
          else if first_item = none then
            match mkavl_add_rollback x processed with
            | none => none
            | some processed' =>
              some (.eoosync,
                    some { t with avl_tree_array := processed' ++ s.2.2 },
                    none)
          else
            some (.eoosync,
                  some { t with avl_tree_array := processed ++ s.2.2 },
                  none)

/-- The deletion loop of mkavl_remove over the indices after the first,
symmetric to mkavl_add_scan. -/
def mkavl_remove_scan [DecidableEq α] (x : α) (first_item : Option α) :
    List (AvlIdx α) → List (AvlIdx α) × Bool × List (AvlIdx α)
  | [] => ([], true, [])
  | idx :: rest =>
    let p := avl_delete idx.cmp x idx.tree
    if p.1 = first_item then
      let s := mkavl_remove_scan x first_item rest
      ({ cmp := idx.cmp, tree := p.2 } :: s.1, s.2.1, s.2.2)
    else
      ([{ cmp := idx.cmp, tree := p.2 }], false, rest)

/-- The error-exit loop of mkavl_remove for the case first_item != NULL:
re-insert the removed item into every index of the processed prefix;
mkavl_assert_abort fires (none) if an insert reports an existing item. -/
def mkavl_remove_rollback [DecidableEq α] (fx : α) :
    List (AvlIdx α) → Option (List (AvlIdx α))
  | [] => some []
  | idx :: rest =>
    let p := avl_insert idx.cmp fx idx.tree
    match p.1 with
    | some _ => none
    | none =>
      (mkavl_remove_rollback fx rest).map
        (fun l => { cmp := idx.cmp, tree := p.2 } :: l)

/-- mkavl_remove of mkavl.c, symmetric to mkavl_add: delete the item from
every index; all indices must report the same removed item (NULL when
absent everywhere).  On agreement with a non-NULL removed item the count
is decremented once, unless it is already 0, in which case rc = EOOSYNC
with err_idx = 0 so the deletions are not rolled back.  On disagreement
rc = EOOSYNC and, only when index 0 reported a removed item, that item is
re-inserted into every index of the processed prefix. -/
def mkavl_remove [DecidableEq α] (tree_h : Option (MkavlTree α))
    (item_to_remove : Option α) (found_item_ptr : Bool) :
    Option (mkavl_rc_e × Option (MkavlTree α) × Option α) :=
  match item_to_remove, found_item_ptr with
  | none, _ => some (.einval, tree_h, none)
  | some _, false => some (.einval, tree_h, none)
  | some x, true =>
    if ¬ mkavl_tree_is_valid tree_h then some (.einval, tree_h, none)
    else
      match tree_h with
      | none => some (.einval, none, none)
      | some t =>
        match t.avl_tree_array with
        | [] => some (.einval, some t, none)
        | idx0 :: rest =>
          let p0 := avl_delete idx0.cmp x idx0.tree
          let first_item := p0.1
          let s := mkavl_remove_scan x first_item rest
          let processed : List (AvlIdx α) :=
            { cmp := idx0.cmp, tree := p0.2 } :: s.1
          if s.2.1 then
            match first_item with
            | some fx =>
              if t.item_count = 0 then
                some (.eoosync,
                      some { t with avl_tree_array := processed ++ s.2.2 },
                      none)
              else
                some (.success,
                      some { t with
                             avl_tree_array := processed ++ s.2.2,
                             item_count := t.item_count - 1 },
                      some fx)
            | none =>
              some (.success,
                    some { t with avl_tree_array := processed ++ s.2.2 },
                    none)
          else
            match first_item with
            | none =>
              some (.eoosync,
                    some { t with avl_tree_array := processed ++ s.2.2 },
                    none)
            | some fx =>
              match mkavl_remove_rollback fx processed with
              | none => none
              | some processed' =>
                some (.eoosync,
                      some { t with avl_tree_array := processed' ++ s.2.2 },
                      none)

/-- mkavl_add_key_idx of mkavl.c: insert into exactly one index, returning
the existing item found there; the live item count is never touched.
Returns (rc, resulting tree handle, value left in *existing_item). -/
def mkavl_add_key_idx (tree_h : Option (MkavlTree α)) (key_idx : Nat)
    (item_to_add : Option α) (existing_item_ptr : Bool) :
    mkavl_rc_e × Option (MkavlTree α) × Option α :=
  match item_to_add, existing_item_ptr with
  | none, _ => (.einval, tree_h, none)
  | some _, false => (.einval, tree_h, none)
  | some x, true =>
    if ¬ mkavl_tree_is_valid tree_h then (.einval, tree_h, none)
    else
      match tree_h with
      | none => (.einval, none, none)
      | some t =>
        if h : key_idx < t.avl_tree_array.length then
          let idx := t.avl_tree_array.get ⟨key_idx, h⟩
          let p := avl_insert idx.cmp x idx.tree
          (.success,
           some { t with
                  avl_tree_array :=
                    t.avl_tree_array.set key_idx
                      { cmp := idx.cmp, tree := p.2 } },
           p.1)
        else (.einval, some t, none)

/-- mkavl_remove_key_idx of mkavl.c: delete from exactly one index,
returning the item found there; the live item count is never touched. -/
def mkavl_remove_key_idx (tree_h : Option (MkavlTree α)) (key_idx : Nat)
    (item_to_remove : Option α) (found_item_ptr : Bool) :
    mkavl_rc_e × Option (MkavlTree α) × Option α :=
  match item_to_remove, found_item_ptr with
  | none, _ => (.einval, tree_h, none)
  | some _, false => (.einval, tree_h, none)
  | some x, true =>
    if ¬ mkavl_tree_is_valid tree_h then (.einval, tree_h, none)
    else
      match tree_h with
      | none => (.einval, none, none)
      | some t =>
        if h : key_idx < t.avl_tree_array.length then
          let idx := t.avl_tree_array.get ⟨key_idx, h⟩
          let p := avl_delete idx.cmp x idx.tree
          (.success,
           some { t with
                  avl_tree_array :=
                    t.avl_tree_array.set key_idx
                      { cmp := idx.cmp, tree := p.2 } },
           p.1)
        else (.einval, some t, none)

/-- mkavl_count of mkavl.c: 0 for an invalid handle, the live item count
otherwise. -/
def mkavl_count : Option (MkavlTree α) → Nat
  | none => 0
  | some t => if t.avl_tree_array.length = 0 then 0 else t.item_count

/-- The accumulation of the overall return value in mkavl_delete: every
non-success callback result overwrites retval. -/
def rc_accum (retval rc : mkavl_rc_e) : mkavl_rc_e :=
  if mkavl_rc_e_is_notok rc then rc else retval

/-- The inner per-item loop body of mkavl_delete: delete the current item
from every index, with mkavl_assert_abort (none) if some index does not
hold it. -/
def mkavl_delete_all_idx [DecidableEq α] (x : α) :
    List (AvlIdx α) → Option (List (AvlIdx α))
  | [] => some []
  | idx :: rest =>
    let p := avl_delete idx.cmp x idx.tree
    match p.1 with
    | none => none
    | some _ =>
      (mkavl_delete_all_idx x rest).map
        (fun l => { cmp := idx.cmp, tree := p.2 } :: l)

/-- The traversal loop of mkavl_delete: repeatedly take the first
(least) item of the representative index 0, delete it from every index,
apply the item function and accumulate its result into retval.  The fuel
models the runaway-iteration guard: the source aborts at the top of the
loop once MKAVL_RUNAWAY_SANITY + 1 items have been processed and another
remains, so the loop is entered at most MKAVL_RUNAWAY_SANITY + 1 times.
The item_count decrement of the source acts on state that is freed before
mkavl_delete returns, so it is not threaded here.  Returns
some (retval, items the item function was applied to, final trees). -/
def mkavl_delete_loop [DecidableEq α] (item_fn : Option (α → mkavl_rc_e)) :
    Nat → List (AvlIdx α) → mkavl_rc_e → List α →
    Option (mkavl_rc_e × List α × List (AvlIdx α))
  | fuel, trees, retval, acc =>
    match trees.head? with
    | none => some (retval, acc, trees)
    | some idx0 =>
      match avl_t_first idx0.tree with
      | none => some (retval, acc, trees)
      | some x =>
        match fuel with
        | 0 => none
        | fuel' + 1 =>
          match mkavl_delete_all_idx x trees with
          | none => none
          | some trees' =>
            match item_fn with
            | none => mkavl_delete_loop item_fn fuel' trees' retval acc
            | some f =>
              mkavl_delete_loop item_fn fuel' trees'
                (rc_accum retval (f x)) (acc ++ [x])

/-- mkavl_delete of mkavl.c: validate the handle, drain every item through
the traversal loop (applying the item function once per logical item),
then invoke the context-teardown function exactly once (even for a NULL
context), free the tree and return the accumulated retval.  Returns
some (retval, items the item function was applied to, number of
context-teardown invocations); none is the abort channel. -/
def mkavl_delete [DecidableEq α] (tree_h : Option (MkavlTree α))
    (item_fn : Option (α → mkavl_rc_e))
    (delete_context_fn : Option (Option Unit → mkavl_rc_e)) :
    Option (mkavl_rc_e × List α × Nat) :=
  if ¬ mkavl_tree_is_valid tree_h then some (.einval, [], 0)
  else
    match tree_h with
    | none => some (.einval, [], 0)
    | some t =>
      match mkavl_delete_loop item_fn (MKAVL_RUNAWAY_SANITY + 1)
              t.avl_tree_array .success [] with
      | none => none
      | some r =>
        match delete_context_fn with
        | none => some (r.1, r.2.1, 0)
        | some g => some (rc_accum r.1 (g t.context), r.2.1, 1)

/-- The index-population loop of mkavl_copy: insert every item of the
copied index 0 (in ascending order) into one further index via
mkavl_add_key_idx.  The tree and index are valid there, so add_key_idx
reduces to avl_insert on that index. -/
def mkavl_copy_insert_list (cmp : α → α → Int) (t : AvlTree α) :
    List α → AvlTree α
  | [] => t
  | x :: xs => mkavl_copy_insert_list cmp (avl_insert cmp x t).2 xs

/-- mkavl_copy of mkavl.c.  Arguments mirror the source: the source tree
handle, whether the new_tree_h out-pointer is non-NULL, the per-item copy
transform (NULL meaning shallow copy), the error-path item finalizer,
whether to reuse the source context, the fresh context otherwise, and a
flag modelling an allocation failure inside avl_copy (the only failure
the model can reach: mkavl_new and the add_key_idx calls succeed under
infallible allocation).  When avl_copy fails the source jumps to err_exit
with rc still MKAVL_RC_E_SUCCESS from the successful mkavl_new; the
clean-up call mkavl_delete(&local_tree_h, item_fn, ...) then rejects the
partial tree as invalid (its index-0 AVL pointer is NULL) and frees
nothing, so no finalizer runs, and the function returns SUCCESS with
*new_tree_h = NULL.  Returns (rc, value left in *new_tree_h, items the
copy transform was applied to). -/
def mkavl_copy (source_tree_h : Option (MkavlTree α)) (new_tree_ptr : Bool)
    (copy_fn : Option (α → α)) (item_fn : Option (α → mkavl_rc_e))
    (use_source_context : Bool) (new_context : Option Unit)
    (delete_context_fn : Option (Option Unit → mkavl_rc_e))
    (avl_copy_fails : Bool) :
    mkavl_rc_e × Option (MkavlTree α) × List α :=
  if ¬ new_tree_ptr then (.einval, none, [])
  else if ¬ mkavl_tree_is_valid source_tree_h then (.einval, none, [])
  else
    match source_tree_h with
    | none => (.einval, none, [])
    | some src =>
      match src.avl_tree_array with
      | [] => (.einval, none, [])
      | idx0 :: rest =>
        let context_to_use :=
          if use_source_context then src.context else new_context
        if avl_copy_fails then (.success, none, [])
        else
          let new_t0 :=
            match copy_fn with
            | none => avl_copy id idx0.tree
            | some f => avl_copy f idx0.tree
          let applied :=
            match copy_fn with
            | none => []
            | some _ => idx0.tree.inorder
          let items := new_t0.inorder
          (.success,
           some { context := context_to_use,
                  avl_tree_array :=
                    { cmp := idx0.cmp, tree := new_t0 } ::
                      rest.map (fun idx =>
                        { cmp := idx.cmp,
                          tree := mkavl_copy_insert_list idx.cmp .nil items }),
                  item_count := avl_count new_t0 },
           applied)

/-- An aggregate operation for stating the cross-index invariant: a
successful mkavl_add or mkavl_remove of one item. -/
inductive MkavlOp (α : Type u) where
  | add (x : α)
  | remove (x : α)

/-- Apply one aggregate operation, keeping the resulting tree only when
the operation returns SUCCESS (none otherwise). -/
def mkavl_apply_op [DecidableEq α] (t : MkavlTree α) :
    MkavlOp α → Option (MkavlTree α)
  | .add x =>
    match mkavl_add (some t) (some x) true with
    | some (.success, some t', _) => some t'
    | _ => none
  | .remove x =>
    match mkavl_remove (some t) (some x) true with
    | some (.success, some t', _) => some t'
    | _ => none

/-- Apply a sequence of aggregate operations, all of which must return
SUCCESS. -/
def mkavl_apply_ops [DecidableEq α] (t : MkavlTree α) :
    List (MkavlOp α) → Option (MkavlTree α)
  | [] => some t
  | op :: ops =>
    match mkavl_apply_op t op with
    | none => none
    | some t' => mkavl_apply_ops t' ops

/-- Fold mkavl_add over a list of items, recording the existing-item
result of every call; none if some call does not return SUCCESS. -/
def mkavl_add_all [DecidableEq α] (t : MkavlTree α) :
    List α → Option (MkavlTree α × List (Option α))
  | [] => some (t, [])
  | x :: xs =>
    match mkavl_add (some t) (some x) true with
    | some (.success, some t', e) =>
      (mkavl_add_all t' xs).map (fun r => (r.1, e :: r.2))
    | _ => none

/-- The comparator contract of the specification: a pure three-way
comparison inducing a strict total order, where comparing equal coincides
with being the same item (identity agreement).  cmp a b < 0 is read as
a before b. -/
structure StrictCmp (cmp : α → α → Int) : Prop where
  eq_iff : ∀ a b, cmp a b = 0 ↔ a = b
  lt_iff_gt : ∀ a b, cmp a b < 0 ↔ 0 < cmp b a
  lt_trans : ∀ a b c, cmp a b < 0 → cmp b c < 0 → cmp a c < 0

/-- The binary search tree invariant with respect to a comparator: every
item in the left subtree compares below the root and every item in the
right subtree compares above it, recursively. -/
def IsBST (cmp : α → α → Int) : AvlTree α → Prop
  | .nil => True
  | .node l x r =>
    IsBST cmp l ∧ IsBST cmp r ∧
      (∀ y ∈ l.inorder, cmp y x < 0) ∧ (∀ y ∈ r.inorder, cmp x y < 0)

/-- The optional result r is the least element of L satisfying P under
cmp: none exactly when no element qualifies, and some y when y is a
qualifying element below every other qualifying element. -/
def OptIsLeast (cmp : α → α → Int) (P : α → Prop) (L : List α) :
    Option α → Prop
  | none => ∀ z ∈ L, ¬ P z
  | some y => y ∈ L ∧ P y ∧ ∀ z ∈ L, P z → y = z ∨ cmp y z < 0

/-- The optional result r is the greatest element of L satisfying P under
cmp. -/
def OptIsGreatest (cmp : α → α → Int) (P : α → Prop) (L : List α) :
    Option α → Prop
  | none => ∀ z ∈ L, ¬ P z
  | some y => y ∈ L ∧ P y ∧ ∀ z ∈ L, P z → y = z ∨ cmp z y < 0

/-- The steady-state invariant of a multi-key tree (§3 of the spec): at
least one index, every comparator lawful, every index a binary search
tree under its comparator, all indices holding the same item set, and
every index holding exactly item_count items. -/
structure Synced (t : MkavlTree α) : Prop where
  ne : t.avl_tree_array ≠ []
  strict : ∀ idx ∈ t.avl_tree_array, StrictCmp idx.cmp
  bst : ∀ idx ∈ t.avl_tree_array, IsBST idx.cmp idx.tree
  mem_iff : ∀ idx ∈ t.avl_tree_array, ∀ idx' ∈ t.avl_tree_array,
    ∀ x, x ∈ idx.tree.inorder ↔ x ∈ idx'.tree.inorder
  count : ∀ idx ∈ t.avl_tree_array, idx.tree.inorder.length = t.item_count

/-- The overall return value mkavl_delete accumulates: the most recent
non-success result in the list of callback results, or SUCCESS if every
callback succeeded. -/
def mkavl_last_notok (l : List mkavl_rc_e) : mkavl_rc_e :=
  ((l.filter (fun rc => mkavl_rc_e_is_notok rc)).getLast?).getD .success

/-- A concrete lawful comparator on Nat, used for witnesses and
counterexamples. -/
def natCmp (a b : Nat) : Int :=
  if a < b then -1 else if b < a then 1 else 0

/-- A concrete single-index tree holding the items 1 and 3. -/
def exTree13 : MkavlTree Nat :=
  { context := none,
    avl_tree_array :=
      [{ cmp := natCmp, tree := .node (.node .nil 1 .nil) 3 .nil }],
    item_count := 2 }

/-- A concrete empty two-index tree. -/
def exTreeEmpty2 : MkavlTree Nat :=
  { context := none,
    avl_tree_array := [{ cmp := natCmp, tree := .nil },
                       { cmp := natCmp, tree := .nil }],
    item_count := 0 }

/-- A concrete desynchronized two-index tree: index 1 holds the item 5,
index 0 does not (the state mkavl_add_key_idx leaves behind). -/
def exTreeDesync : MkavlTree Nat :=
  { context := none,
    avl_tree_array := [{ cmp := natCmp, tree := .nil },
                       { cmp := natCmp, tree := .node .nil 5 .nil }],
    item_count := 0 }

/-- A concrete synchronized single-index tree holding the item 1. -/
def exTreeOne : MkavlTree Nat :=
  { context := none,
    avl_tree_array := [{ cmp := natCmp, tree := .node .nil 1 .nil }],
    item_count := 1 }

/-- A concrete synchronized two-index tree holding the item 1. -/
def exTreeOne2 : MkavlTree Nat :=
  { context := none,
    avl_tree_array := [{ cmp := natCmp, tree := .node .nil 1 .nil },
                       { cmp := natCmp, tree := .node .nil 1 .nil }],
    item_count := 1 }

/-- A concrete synchronized single-index tree holding the items 1 and 2. -/
def exTree12 : MkavlTree Nat :=
  { context := none,
    avl_tree_array :=
      [{ cmp := natCmp, tree := .node .nil 1 (.node .nil 2 .nil) }],
    item_count := 2 }

/-- A concrete item finalizer whose result depends on the item: OutOfSync
for item 1, InvalidArgument for every other item. -/
def exItemFn (x : Nat) : mkavl_rc_e :=
  if x = 1 then .eoosync else .einval

/-- A concrete always-succeeding item finalizer. -/
def exItemFnOk (_ : Nat) : mkavl_rc_e := .success

/-- A concrete always-succeeding context-teardown callback. -/
def exDeleteContextFn (_ : Option Unit) : mkavl_rc_e := .success

/-! ## Basic facts about lawful comparators and the tree model -/

variable {α : Type u} {cmp : α → α → Int}

theorem StrictCmp.cmp_self (h : StrictCmp cmp) (a : α) : cmp a a = 0 :=
  (h.eq_iff a a).2 rfl

theorem StrictCmp.lt_of_lt_of_lt (h : StrictCmp cmp) {a b c : α}
    (hab : cmp a b < 0) (hbc : cmp b c < 0) : cmp a c < 0 :=
  h.lt_trans a b c hab hbc

theorem StrictCmp.gt_of_lt (h : StrictCmp cmp) {a b : α}
    (hab : cmp a b < 0) : 0 < cmp b a :=
  (h.lt_iff_gt a b).1 hab

theorem StrictCmp.lt_of_gt (h : StrictCmp cmp) {a b : α}
    (hab : 0 < cmp a b) : cmp b a < 0 :=
  (h.lt_iff_gt b a).2 hab

theorem StrictCmp.asymm (h : StrictCmp cmp) {a b : α}
    (hab : cmp a b < 0) : ¬ cmp b a < 0 := by
  have := h.gt_of_lt hab
  omega

theorem StrictCmp.ne_of_lt (h : StrictCmp cmp) {a b : α}
    (hab : cmp a b < 0) : a ≠ b := by
  intro he
  subst he
  rw [h.cmp_self] at hab
  omega

theorem natCmp_strict : StrictCmp natCmp := by
  constructor
  · intro a b
    unfold natCmp
    split <;> rename_i h1
    · constructor <;> (intro h; omega)
    · split <;> rename_i h2
      · constructor <;> (intro h; omega)
      · constructor <;> (intro h; omega)
  · intro a b
    rcases Nat.lt_trichotomy a b with h | h | h
    · have h2 : ¬ b < a := by omega
      simp [natCmp, h, h2]
    · subst h
      simp [natCmp]
    · have h2 : ¬ a < b := by omega
      simp [natCmp, h, h2]
  · intro a b c hab hbc
    unfold natCmp at hab hbc ⊢
    split at hab <;> split at hbc <;> split <;> omega

@[simp] theorem inorder_nil : (AvlTree.nil : AvlTree α).inorder = [] := rfl

@[simp] theorem inorder_node (l : AvlTree α) (x : α) (r : AvlTree α) :
    (AvlTree.node l x r).inorder = l.inorder ++ x :: r.inorder := rfl

@[simp] theorem IsBST_nil : IsBST cmp (AvlTree.nil : AvlTree α) := trivial

theorem IsBST_node {l : AvlTree α} {x : α} {r : AvlTree α} :
    IsBST cmp (AvlTree.node l x r) ↔
      IsBST cmp l ∧ IsBST cmp r ∧
        (∀ y ∈ l.inorder, cmp y x < 0) ∧ (∀ y ∈ r.inorder, cmp x y < 0) :=
  Iff.rfl

theorem IsBST.sorted (SC : StrictCmp cmp) {t : AvlTree α}
    (hb : IsBST cmp t) : t.inorder.Pairwise (fun a b => cmp a b < 0) := by
  induction t with
  | nil => simp
  | node l x r ihl ihr =>
    rcases hb with ⟨hbl, hbr, hlx, hxr⟩
    rw [inorder_node, List.pairwise_append]
    refine ⟨ihl hbl, ?_, ?_⟩
    · exact List.pairwise_cons.2 ⟨hxr, ihr hbr⟩
    · intro a ha b hbmem
      rcases List.mem_cons.1 hbmem with hbx | hbr'
      · subst hbx; exact hlx a ha
      · exact SC.lt_of_lt_of_lt (hlx a ha) (hxr b hbr')

theorem IsBST.nodup (SC : StrictCmp cmp) {t : AvlTree α}
    (hb : IsBST cmp t) : t.inorder.Nodup :=
  (hb.sorted SC).imp (fun h => SC.ne_of_lt h)

/-! ## avl_insert, avl_delete, avl_find on binary search trees -/

theorem avl_insert_mem (SC : StrictCmp cmp) {t : AvlTree α} {x : α}
    (hb : IsBST cmp t) (hx : x ∈ t.inorder) :
    avl_insert cmp x t = (some x, t) := by
  induction t with
  | nil => simp at hx
  | node l y r ihl ihr =>
    rcases hb with ⟨hbl, hbr, hly, hyr⟩
    rw [inorder_node, List.mem_append, List.mem_cons] at hx
    rcases hx with hxl | hxy | hxr
    · have hlt : cmp x y < 0 := hly x hxl
      rw [avl_insert]
      simp only [hlt, if_pos, ihl hbl hxl]
    · subst hxy
      have h0 : cmp x x = 0 := SC.cmp_self x
      rw [avl_insert]
      simp only [h0]
      norm_num
    · have hgt : 0 < cmp x y := SC.gt_of_lt (hyr x hxr)
      rw [avl_insert]
      have hnlt : ¬ cmp x y < 0 := by omega
      simp [hnlt, hgt, ihr hbr hxr]

theorem avl_insert_not_mem (SC : StrictCmp cmp) {t : AvlTree α} {x : α}
    (hb : IsBST cmp t) (hx : x ∉ t.inorder) :
    (avl_insert cmp x t).1 = none ∧
      IsBST cmp (avl_insert cmp x t).2 ∧
      ((avl_insert cmp x t).2.inorder).Perm (x :: t.inorder) := by
  induction t with
  | nil => simp [avl_insert, IsBST_node]
  | node l y r ihl ihr =>
    rcases hb with ⟨hbl, hbr, hly, hyr⟩
    have hxl : x ∉ l.inorder := fun h => hx (by simp [h])
    have hxr : x ∉ r.inorder := fun h => hx (by simp [h])
    have hxy : x ≠ y := fun h => hx (by simp [h])
    rcases lt_trichotomy (cmp x y) 0 with hlt | heq | hgt
    · rcases ihl hbl hxl with ⟨h1, h2, h3⟩
      rw [avl_insert]
      simp only [hlt, if_pos]
      refine ⟨h1, ⟨h2, hbr, ?_, hyr⟩, ?_⟩
      · intro z hz
        rcases List.mem_cons.1 (h3.mem_iff.1 hz) with hz1 | hz2
        · subst hz1; exact hlt
        · exact hly z hz2
      · rw [inorder_node]
        have h4 : ((avl_insert cmp x l).2.inorder ++ y :: r.inorder).Perm
            ((x :: l.inorder) ++ y :: r.inorder) := h3.append_right _
        exact h4
    · exact absurd ((SC.eq_iff x y).1 heq) hxy
    · rcases ihr hbr hxr with ⟨h1, h2, h3⟩
      rw [avl_insert]
      have hnlt : ¬ cmp x y < 0 := by omega
      simp only [hnlt, if_neg, hgt, if_pos]
      refine ⟨h1, ⟨hbl, h2, hly, ?_⟩, ?_⟩
      · intro z hz
        rcases List.mem_cons.1 (h3.mem_iff.1 hz) with hz1 | hz2
        · subst hz1; exact SC.lt_of_gt hgt
        · exact hyr z hz2
      · rw [inorder_node]
        have step1 : (l.inorder ++ y :: (avl_insert cmp x r).2.inorder).Perm
            (l.inorder ++ y :: x :: r.inorder) :=
          ((h3.cons y).append_left l.inorder)
        have step2 : (l.inorder ++ y :: x :: r.inorder).Perm
            (l.inorder ++ x :: y :: r.inorder) :=
          (List.Perm.swap x y r.inorder).append_left l.inorder
        exact (step1.trans step2).trans List.perm_middle

theorem pullMin_eq_none_iff {t : AvlTree α} :
    pullMin t = none ↔ t = .nil := by
  cases t with
  | nil => simp [pullMin]
  | node l x r =>
    rw [pullMin]
    cases pullMin l <;> simp

theorem pullMin_spec {t : AvlTree α}
    {p : α × AvlTree α} (hb : IsBST cmp t) (hp : pullMin t = some p) :
    t.inorder = p.1 :: p.2.inorder ∧ IsBST cmp p.2 := by
  induction t generalizing p with
  | nil => simp [pullMin] at hp
  | node l x r ihl ihr =>
    rcases hb with ⟨hbl, hbr, hlx, hxr⟩
    rw [pullMin] at hp
    cases hq : pullMin l with
    | none =>
      rw [hq] at hp
      have hl : l = .nil := pullMin_eq_none_iff.1 hq
      subst hl
      simp only [Option.some.injEq] at hp
      subst hp
      exact ⟨by simp, hbr⟩
    | some q =>
      rw [hq] at hp
      simp only [Option.some.injEq] at hp
      subst hp
      rcases ihl hbl hq with ⟨hiq, hbq⟩
      constructor
      · simp [hiq]
      · refine ⟨hbq, hbr, ?_, hxr⟩
        intro z hz
        exact hlx z (by rw [hiq]; exact List.mem_cons_of_mem _ hz)

theorem avl_delete_not_mem (SC : StrictCmp cmp) {t : AvlTree α} {x : α}
    (hb : IsBST cmp t) (hx : x ∉ t.inorder) :
    avl_delete cmp x t = (none, t) := by
  induction t with
  | nil => simp [avl_delete]
  | node l y r ihl ihr =>
    rcases hb with ⟨hbl, hbr, hly, hyr⟩
    have hxl : x ∉ l.inorder := fun h => hx (by simp [h])
    have hxr : x ∉ r.inorder := fun h => hx (by simp [h])
    have hxy : x ≠ y := fun h => hx (by simp [h])
    rcases lt_trichotomy (cmp x y) 0 with hlt | heq | hgt
    · rw [avl_delete]
      simp only [hlt, if_pos, ihl hbl hxl]
    · exact absurd ((SC.eq_iff x y).1 heq) hxy
    · rw [avl_delete]
      have hnlt : ¬ cmp x y < 0 := by omega
      simp [hnlt, hgt, ihr hbr hxr]

theorem avl_delete_mem (SC : StrictCmp cmp) {t : AvlTree α} {x : α}
    (hb : IsBST cmp t) (hx : x ∈ t.inorder) :
    (avl_delete cmp x t).1 = some x ∧
      IsBST cmp (avl_delete cmp x t).2 ∧
      (t.inorder).Perm (x :: (avl_delete cmp x t).2.inorder) := by
  induction t with
  | nil => simp at hx
  | node l y r ihl ihr =>
    rcases hb with ⟨hbl, hbr, hly, hyr⟩
    rw [inorder_node, List.mem_append, List.mem_cons] at hx
    rcases hx with hxl | hxy | hxr
    · have hlt : cmp x y < 0 := hly x hxl
      rcases ihl hbl hxl with ⟨h1, h2, h3⟩
      rw [avl_delete]
      simp only [hlt, if_pos]
      refine ⟨h1, ⟨h2, hbr, ?_, hyr⟩, ?_⟩
      · intro z hz
        exact hly z (h3.mem_iff.2 (List.mem_cons_of_mem _ hz))
      · rw [inorder_node]
        have h4 : (l.inorder ++ y :: r.inorder).Perm
            ((x :: (avl_delete cmp x l).2.inorder) ++ y :: r.inorder) :=
          h3.append_right _
        exact h4
    · subst hxy
      have h0 : cmp x x = 0 := SC.cmp_self x
      rw [avl_delete]
      simp only [h0]
      norm_num
      cases hq : pullMin r with
      | none =>
        have hr : r = .nil := pullMin_eq_none_iff.1 hq
        subst hr
        simp only
        exact ⟨trivial, hbl, by simpa using List.perm_append_singleton x l.inorder⟩
      | some q =>
        rcases pullMin_spec hbr hq with ⟨hiq, hbq⟩
        simp only
        refine ⟨trivial, ⟨hbl, hbq, ?_, ?_⟩, ?_⟩
        · intro z hz
          have hq1r : q.1 ∈ r.inorder := by rw [hiq]; exact List.mem_cons_self _ _
          exact SC.lt_of_lt_of_lt (hly z hz) (hyr q.1 hq1r)
        · intro z hz
          have hsr := hbr.sorted SC
          rw [hiq, List.pairwise_cons] at hsr
          exact hsr.1 z hz
        · rw [hiq]
          exact List.perm_middle
    · have hgt : 0 < cmp x y := SC.gt_of_lt (hyr x hxr)
      rcases ihr hbr hxr with ⟨h1, h2, h3⟩
      rw [avl_delete]
      have hnlt : ¬ cmp x y < 0 := by omega
      simp only [hnlt, if_neg, hgt, if_pos]
      refine ⟨h1, ⟨hbl, h2, hly, ?_⟩, ?_⟩
      · intro z hz
        exact hyr z (h3.mem_iff.2 (List.mem_cons_of_mem _ hz))
      · rw [inorder_node]
        have step1 : (l.inorder ++ y :: r.inorder).Perm
            (l.inorder ++ y :: x :: (avl_delete cmp x r).2.inorder) :=
          (h3.cons y).append_left l.inorder
        have step2 : (l.inorder ++ y :: x :: (avl_delete cmp x r).2.inorder).Perm
            (l.inorder ++ x :: y :: (avl_delete cmp x r).2.inorder) :=
          (List.Perm.swap x y _).append_left l.inorder
        exact (step1.trans step2).trans List.perm_middle

/-! ## The directional search engine on binary search trees -/

/-- The qualifying predicate of the greater-than search: strictly greater
than the key, or at-least the key when find_equal_to is set. -/
def GtPred (cmp : α → α → Int) (b : Bool) (key z : α) : Prop :=
  if b then cmp key z ≤ 0 else cmp key z < 0

/-- The qualifying predicate of the less-than search. -/
def LtPred (cmp : α → α → Int) (b : Bool) (key z : α) : Prop :=
  if b then 0 ≤ cmp key z else 0 < cmp key z

theorem GtPred_of_lt {b : Bool} {key z : α} (h : cmp key z < 0) :
    GtPred cmp b key z := by
  cases b <;> simp [GtPred] <;> omega

theorem not_GtPred_of_pos {b : Bool} {key z : α} (h : 0 < cmp key z) :
    ¬ GtPred cmp b key z := by
  cases b <;> simp [GtPred] <;> omega

theorem LtPred_of_pos {b : Bool} {key z : α} (h : 0 < cmp key z) :
    LtPred cmp b key z := by
  cases b <;> simp [LtPred] <;> omega

theorem not_LtPred_of_lt {b : Bool} {key z : α} (h : cmp key z < 0) :
    ¬ LtPred cmp b key z := by
  cases b <;> simp [LtPred] <;> omega

theorem mkavl_find_avl_gt_node_eq {l r : AvlTree α} {x key : α} {b : Bool}
    (heq : cmp x key = 0) :
    mkavl_find_avl_gt cmp b key (AvlTree.node l x r) =
      if b then some x else mkavl_avl_first r := by
  rw [mkavl_find_avl_gt]
  have h1 : ¬ cmp x key < 0 := by omega
  have h2 : ¬ 0 < cmp x key := by omega
  simp [h1, h2]

theorem mkavl_find_avl_lt_node_eq {l r : AvlTree α} {x key : α} {b : Bool}
    (heq : cmp x key = 0) :
    mkavl_find_avl_lt cmp b key (AvlTree.node l x r) =
      if b then some x else mkavl_avl_last l := by
  rw [mkavl_find_avl_lt]
  have h1 : ¬ cmp x key < 0 := by omega
  have h2 : ¬ 0 < cmp x key := by omega
  simp [h1, h2]

theorem mkavl_avl_first_spec (SC : StrictCmp cmp) {t : AvlTree α}
    (hb : IsBST cmp t) :
    OptIsLeast cmp (fun _ => True) t.inorder (mkavl_avl_first t) := by
  induction t with
  | nil => simp [mkavl_avl_first, OptIsLeast]
  | node l x r ihl ihr =>
    rcases hb with ⟨hbl, hbr, hlx, hxr⟩
    cases l with
    | nil =>
      rw [mkavl_avl_first]
      simp only [OptIsLeast, inorder_node, inorder_nil, List.nil_append]
      refine ⟨List.mem_cons_self _ _, trivial, ?_⟩
      intro z hz _
      rcases List.mem_cons.1 hz with h1 | h2
      · exact Or.inl h1.symm
      · exact Or.inr (hxr z h2)
    | node a y c =>
      rw [mkavl_avl_first]
      have hi := ihl hbl
      cases hm : mkavl_avl_first (AvlTree.node a y c) with
      | none =>
        rw [hm] at hi
        simp only [OptIsLeast] at hi
        exact absurd (hi y (by simp)) (fun h => h trivial)
      | some m =>
        rw [hm] at hi
        simp only [OptIsLeast] at hi ⊢
        rcases hi with ⟨hmem, _, hmin⟩
        refine ⟨?_, trivial, ?_⟩
        · rw [inorder_node]
          exact List.mem_append.2 (Or.inl hmem)
        · intro z hz _
          rw [inorder_node] at hz
          rcases List.mem_append.1 hz with hz1 | hz2
          · exact hmin z hz1 trivial
          · rcases List.mem_cons.1 hz2 with hz3 | hz4
            · subst hz3
              exact Or.inr (hlx m hmem)
            · exact Or.inr (SC.lt_of_lt_of_lt (hlx m hmem) (hxr z hz4))

theorem mkavl_avl_last_spec (SC : StrictCmp cmp) {t : AvlTree α}
    (hb : IsBST cmp t) :
    OptIsGreatest cmp (fun _ => True) t.inorder (mkavl_avl_last t) := by
  induction t with
  | nil => simp [mkavl_avl_last, OptIsGreatest]
  | node l x r ihl ihr =>
    rcases hb with ⟨hbl, hbr, hlx, hxr⟩
    cases r with
    | nil =>
      rw [mkavl_avl_last]
      simp only [OptIsGreatest, inorder_node, inorder_nil]
      refine ⟨by simp, trivial, ?_⟩
      intro z hz _
      rcases List.mem_append.1 hz with h1 | h2
      · exact Or.inr (hlx z h1)
      · rcases List.mem_cons.1 h2 with h3 | h4
        · exact Or.inl h3.symm
        · simp at h4
    | node a y c =>
      rw [mkavl_avl_last]
      have hi := ihr hbr
      cases hm : mkavl_avl_last (AvlTree.node a y c) with
      | none =>
        rw [hm] at hi
        simp only [OptIsGreatest] at hi
        exact absurd (hi y (by simp)) (fun h => h trivial)
      | some m =>
        rw [hm] at hi
        simp only [OptIsGreatest] at hi ⊢
        rcases hi with ⟨hmem, _, hmax⟩
        refine ⟨?_, trivial, ?_⟩
        · rw [inorder_node]
          exact List.mem_append.2 (Or.inr (List.mem_cons_of_mem _ hmem))
        · intro z hz _
          rw [inorder_node] at hz
          rcases List.mem_append.1 hz with hz1 | hz2
          · exact Or.inr (SC.lt_of_lt_of_lt (hlx z hz1) (hxr m hmem))
          · rcases List.mem_cons.1 hz2 with hz3 | hz4
            · subst hz3
              exact Or.inr (hxr m hmem)
            · exact hmax z hz4 trivial

theorem mkavl_find_avl_gt_spec (SC : StrictCmp cmp) {t : AvlTree α}
    (hb : IsBST cmp t) (b : Bool) (key : α) :
    OptIsLeast cmp (GtPred cmp b key) t.inorder
      (mkavl_find_avl_gt cmp b key t) := by
  induction t with
  | nil => simp [mkavl_find_avl_gt, OptIsLeast]
  | node l x r ihl ihr =>
    rcases hb with ⟨hbl, hbr, hlx, hxr⟩
    have hil := ihl hbl
    have hir := ihr hbr
    rcases lt_trichotomy (cmp x key) 0 with hlt | heq | hgt
    · -- current node below the key: only the right subtree can qualify
      have hnl : ∀ z ∈ l.inorder, ¬ GtPred cmp b key z := by
        intro z hz
        exact not_GtPred_of_pos (SC.gt_of_lt (SC.lt_of_lt_of_lt (hlx z hz) hlt))
      have hnx : ¬ GtPred cmp b key x := not_GtPred_of_pos (SC.gt_of_lt hlt)
      rw [mkavl_find_avl_gt]
      simp only [hlt, if_pos]
      cases hm : mkavl_find_avl_gt cmp b key r with
      | none =>
        rw [hm] at hir
        simp only [OptIsLeast] at hir ⊢
        intro z hz
        rw [inorder_node, List.mem_append, List.mem_cons] at hz
        rcases hz with h1 | h2 | h3
        · exact hnl z h1
        · subst h2; exact hnx
        · exact hir z h3
      | some m =>
        rw [hm] at hir
        simp only [OptIsLeast] at hir ⊢
        rcases hir with ⟨hmem, hp, hmin⟩
        refine ⟨by simp [hmem], hp, ?_⟩
        intro z hz hpz
        rw [inorder_node, List.mem_append, List.mem_cons] at hz
        rcases hz with h1 | h2 | h3
        · exact absurd hpz (hnl z h1)
        · subst h2; exact absurd hpz hnx
        · exact hmin z h3 hpz
    · -- current node equal to the key
      have hxk : x = key := (SC.eq_iff x key).1 heq
      subst hxk
      rw [mkavl_find_avl_gt_node_eq heq]
      cases b with
      | true =>
        rw [if_pos rfl]
        simp only [OptIsLeast]
        refine ⟨by simp, by simp [GtPred, SC.cmp_self], ?_⟩
        intro z hz hpz
        simp only [inorder_node, List.mem_append, List.mem_cons] at hz
        rcases hz with h1 | h2 | h3
        · exact absurd hpz (not_GtPred_of_pos (SC.gt_of_lt (hlx z h1)))
        · exact Or.inl h2.symm
        · exact Or.inr (hxr z h3)
      | false =>
        rw [if_neg (by simp)]
        have hfr := mkavl_avl_first_spec SC hbr
        cases hm : mkavl_avl_first r with
        | none =>
          rw [hm] at hfr
          simp only [OptIsLeast] at hfr ⊢
          intro z hz
          simp only [inorder_node, List.mem_append, List.mem_cons] at hz
          rcases hz with h1 | h2 | h3
          · exact not_GtPred_of_pos (SC.gt_of_lt (hlx z h1))
          · subst h2
            simp [GtPred, SC.cmp_self]
          · exact absurd trivial (hfr z h3)
        | some m =>
          rw [hm] at hfr
          simp only [OptIsLeast] at hfr ⊢
          rcases hfr with ⟨hmem, _, hmin⟩
          refine ⟨?_, GtPred_of_lt (hxr m hmem), ?_⟩
          · rw [inorder_node]
            exact List.mem_append.2 (Or.inr (List.mem_cons_of_mem _ hmem))
          · intro z hz hpz
            simp only [inorder_node, List.mem_append, List.mem_cons] at hz
            rcases hz with h1 | h2 | h3
            · exact absurd hpz (not_GtPred_of_pos (SC.gt_of_lt (hlx z h1)))
            · subst h2
              exact absurd hpz (by simp [GtPred, SC.cmp_self])
            · exact hmin z h3 trivial
    · -- current node above the key: the node itself is a candidate
      have hkx : cmp key x < 0 := SC.lt_of_gt hgt
      rw [mkavl_find_avl_gt]
      have hnlt : ¬ cmp x key < 0 := by omega
      simp only [hnlt, if_neg, hgt, if_pos]
      cases hm : mkavl_find_avl_gt cmp b key l with
      | none =>
        rw [hm] at hil
        simp only [OptIsLeast] at hil ⊢
        refine ⟨by simp, GtPred_of_lt hkx, ?_⟩
        intro z hz hpz
        rw [inorder_node, List.mem_append, List.mem_cons] at hz
        rcases hz with h1 | h2 | h3
        · exact absurd hpz (hil z h1)
        · exact Or.inl h2.symm
        · exact Or.inr (hxr z h3)
      | some m =>
        rw [hm] at hil
        simp only [OptIsLeast] at hil ⊢
        rcases hil with ⟨hmem, hp, hmin⟩
        refine ⟨by simp [hmem], hp, ?_⟩
        intro z hz hpz
        rw [inorder_node, List.mem_append, List.mem_cons] at hz
        rcases hz with h1 | h2 | h3
        · exact hmin z h1 hpz
        · subst h2; exact Or.inr (hlx m hmem)
        · exact Or.inr (SC.lt_of_lt_of_lt (hlx m hmem) (hxr z h3))

theorem mkavl_find_avl_lt_spec (SC : StrictCmp cmp) {t : AvlTree α}
    (hb : IsBST cmp t) (b : Bool) (key : α) :
    OptIsGreatest cmp (LtPred cmp b key) t.inorder
      (mkavl_find_avl_lt cmp b key t) := by
  induction t with
  | nil => simp [mkavl_find_avl_lt, OptIsGreatest]
  | node l x r ihl ihr =>
    rcases hb with ⟨hbl, hbr, hlx, hxr⟩
    have hil := ihl hbl
    have hir := ihr hbr
    rcases lt_trichotomy (cmp x key) 0 with hlt | heq | hgt
    · -- current node below the key: the node itself is a candidate
      have hkx : 0 < cmp key x := SC.gt_of_lt hlt
      rw [mkavl_find_avl_lt]
      simp only [hlt, if_pos]
      cases hm : mkavl_find_avl_lt cmp b key r with
      | none =>
        rw [hm] at hir
        simp only [OptIsGreatest] at hir ⊢
        refine ⟨by simp, LtPred_of_pos hkx, ?_⟩
        intro z hz hpz
        rw [inorder_node, List.mem_append, List.mem_cons] at hz
        rcases hz with h1 | h2 | h3
        · exact Or.inr (hlx z h1)
        · exact Or.inl h2.symm
        · exact absurd hpz (hir z h3)
      | some m =>
        rw [hm] at hir
        simp only [OptIsGreatest] at hir ⊢
        rcases hir with ⟨hmem, hp, hmax⟩
        refine ⟨by simp [hmem], hp, ?_⟩
        intro z hz hpz
        rw [inorder_node, List.mem_append, List.mem_cons] at hz
        rcases hz with h1 | h2 | h3
        · exact Or.inr (SC.lt_of_lt_of_lt (hlx z h1) (hxr m hmem))
        · subst h2; exact Or.inr (hxr m hmem)
        · exact hmax z h3 hpz
    · -- current node equal to the key
      have hxk : x = key := (SC.eq_iff x key).1 heq
      subst hxk
      rw [mkavl_find_avl_lt_node_eq heq]
      cases b with
      | true =>
        rw [if_pos rfl]
        simp only [OptIsGreatest]
        refine ⟨by simp, by simp [LtPred, SC.cmp_self], ?_⟩
        intro z hz hpz
        simp only [inorder_node, List.mem_append, List.mem_cons] at hz
        rcases hz with h1 | h2 | h3
        · exact Or.inr (hlx z h1)
        · exact Or.inl h2.symm
        · exact absurd hpz (not_LtPred_of_lt (hxr z h3))
      | false =>
        rw [if_neg (by simp)]
        have hfl := mkavl_avl_last_spec SC hbl
        cases hm : mkavl_avl_last l with
        | none =>
          rw [hm] at hfl
          simp only [OptIsGreatest] at hfl ⊢
          intro z hz
          simp only [inorder_node, List.mem_append, List.mem_cons] at hz
          rcases hz with h1 | h2 | h3
          · exact absurd trivial (hfl z h1)
          · subst h2
            simp [LtPred, SC.cmp_self]
          · exact not_LtPred_of_lt (hxr z h3)
        | some m =>
          rw [hm] at hfl
          simp only [OptIsGreatest] at hfl ⊢
          rcases hfl with ⟨hmem, _, hmax⟩
          refine ⟨?_, LtPred_of_pos (SC.gt_of_lt (hlx m hmem)), ?_⟩
          · rw [inorder_node]
            exact List.mem_append.2 (Or.inl hmem)
          · intro z hz hpz
            simp only [inorder_node, List.mem_append, List.mem_cons] at hz
            rcases hz with h1 | h2 | h3
            · exact hmax z h1 trivial
            · subst h2
              exact absurd hpz (by simp [LtPred, SC.cmp_self])
            · exact absurd hpz (not_LtPred_of_lt (hxr z h3))
    · -- current node above the key: only the left subtree can qualify
      have hnr : ∀ z ∈ r.inorder, ¬ LtPred cmp b key z := by
        intro z hz
        exact not_LtPred_of_lt
          (SC.lt_of_gt (SC.gt_of_lt (SC.lt_of_lt_of_lt (SC.lt_of_gt hgt) (hxr z hz))))
      have hnx : ¬ LtPred cmp b key x := not_LtPred_of_lt (SC.lt_of_gt hgt)
      rw [mkavl_find_avl_lt]
      have hnlt : ¬ cmp x key < 0 := by omega
      simp only [hnlt, if_neg, hgt, if_pos]
      cases hm : mkavl_find_avl_lt cmp b key l with
      | none =>
        rw [hm] at hil
        simp only [OptIsGreatest] at hil ⊢
        intro z hz
        rw [inorder_node, List.mem_append, List.mem_cons] at hz
        rcases hz with h1 | h2 | h3
        · exact hil z h1
        · subst h2; exact hnx
        · exact hnr z h3
      | some m =>
        rw [hm] at hil
        simp only [OptIsGreatest] at hil ⊢
        rcases hil with ⟨hmem, hp, hmax⟩
        refine ⟨by simp [hmem], hp, ?_⟩
        intro z hz hpz
        rw [inorder_node, List.mem_append, List.mem_cons] at hz
        rcases hz with h1 | h2 | h3
        · exact hmax z h1 hpz
        · subst h2; exact absurd hpz hnx
        · exact absurd hpz (hnr z h3)

theorem OptIsLeast_unique (SC : StrictCmp cmp) {P Q : α → Prop} {L : List α}
    {r1 r2 : Option α} (hPQ : ∀ z ∈ L, (P z ↔ Q z))
    (h1 : OptIsLeast cmp P L r1) (h2 : OptIsLeast cmp Q L r2) : r1 = r2 := by
  cases r1 with
  | none =>
    cases r2 with
    | none => rfl
    | some y2 =>
      simp only [OptIsLeast] at h1 h2
      exact absurd ((hPQ y2 h2.1).2 h2.2.1) (h1 y2 h2.1)
  | some y1 =>
    cases r2 with
    | none =>
      simp only [OptIsLeast] at h1 h2
      exact absurd ((hPQ y1 h1.1).1 h1.2.1) (h2 y1 h1.1)
    | some y2 =>
      simp only [OptIsLeast] at h1 h2
      rcases h1 with ⟨hm1, hp1, hmin1⟩
      rcases h2 with ⟨hm2, hp2, hmin2⟩
      rcases hmin1 y2 hm2 ((hPQ y2 hm2).2 hp2) with he | hl1
      · exact congrArg some he
      · rcases hmin2 y1 hm1 ((hPQ y1 hm1).1 hp1) with he | hl2
        · exact congrArg some he.symm
        · exact absurd hl2 (SC.asymm hl1)

theorem OptIsGreatest_unique (SC : StrictCmp cmp) {P Q : α → Prop} {L : List α}
    {r1 r2 : Option α} (hPQ : ∀ z ∈ L, (P z ↔ Q z))
    (h1 : OptIsGreatest cmp P L r1) (h2 : OptIsGreatest cmp Q L r2) :
    r1 = r2 := by
  cases r1 with
  | none =>
    cases r2 with
    | none => rfl
    | some y2 =>
      simp only [OptIsGreatest] at h1 h2
      exact absurd ((hPQ y2 h2.1).2 h2.2.1) (h1 y2 h2.1)
  | some y1 =>
    cases r2 with
    | none =>
      simp only [OptIsGreatest] at h1 h2
      exact absurd ((hPQ y1 h1.1).1 h1.2.1) (h2 y1 h1.1)
    | some y2 =>
      simp only [OptIsGreatest] at h1 h2
      rcases h1 with ⟨hm1, hp1, hmax1⟩
      rcases h2 with ⟨hm2, hp2, hmax2⟩
      rcases hmax1 y2 hm2 ((hPQ y2 hm2).2 hp2) with he | hl1
      · exact congrArg some he
      · rcases hmax2 y1 hm1 ((hPQ y1 hm1).1 hp1) with he | hl2
        · exact congrArg some he.symm
        · exact absurd hl2 (SC.asymm hl1)

theorem OptIsLeast_of_mem_nonstrict (SC : StrictCmp cmp) {L : List α}
    {key : α} {r : Option α} (hk : key ∈ L)
    (h : OptIsLeast cmp (GtPred cmp true key) L r) : r = some key := by
  cases r with
  | none =>
    simp only [OptIsLeast] at h
    exact absurd (by simp [GtPred, SC.cmp_self]) (h key hk)
  | some y =>
    simp only [OptIsLeast] at h
    rcases h with ⟨hm, hp, hmin⟩
    rcases hmin key hk (by simp [GtPred, SC.cmp_self]) with he | hl
    · exact congrArg some he
    · simp only [GtPred, if_pos] at hp
      exact absurd (SC.gt_of_lt hl) (by omega)

theorem OptIsGreatest_of_mem_nonstrict (SC : StrictCmp cmp) {L : List α}
    {key : α} {r : Option α} (hk : key ∈ L)
    (h : OptIsGreatest cmp (LtPred cmp true key) L r) : r = some key := by
  cases r with
  | none =>
    simp only [OptIsGreatest] at h
    exact absurd (by simp [LtPred, SC.cmp_self]) (h key hk)
  | some y =>
    simp only [OptIsGreatest] at h
    rcases h with ⟨hm, hp, hmax⟩
    rcases hmax key hk (by simp [LtPred, SC.cmp_self]) with he | hl
    · exact congrArg some he
    · simp only [LtPred, if_pos] at hp
      exact absurd (SC.gt_of_lt hl) (by omega)

theorem mkavl_find_eval_gt {t : MkavlTree α} {k : Nat} {key : α}
    (hk : k < t.avl_tree_array.length) :
    mkavl_find (some t) .gt k (some key) true =
      (.success,
       mkavl_find_avl_gt (t.avl_tree_array.get ⟨k, hk⟩).cmp false key
         (t.avl_tree_array.get ⟨k, hk⟩).tree) := by
  have hlen : t.avl_tree_array.length ≠ 0 := by omega
  simp [mkavl_find, mkavl_find_type_e_is_valid, mkavl_tree_is_valid, hlen, hk]

theorem mkavl_find_eval_ge {t : MkavlTree α} {k : Nat} {key : α}
    (hk : k < t.avl_tree_array.length) :
    mkavl_find (some t) .ge k (some key) true =
      (.success,
       mkavl_find_avl_gt (t.avl_tree_array.get ⟨k, hk⟩).cmp true key
         (t.avl_tree_array.get ⟨k, hk⟩).tree) := by
  have hlen : t.avl_tree_array.length ≠ 0 := by omega
  simp [mkavl_find, mkavl_find_type_e_is_valid, mkavl_tree_is_valid, hlen, hk]

theorem mkavl_find_eval_lt {t : MkavlTree α} {k : Nat} {key : α}
    (hk : k < t.avl_tree_array.length) :
    mkavl_find (some t) .lt k (some key) true =
      (.success,
       mkavl_find_avl_lt (t.avl_tree_array.get ⟨k, hk⟩).cmp false key
         (t.avl_tree_array.get ⟨k, hk⟩).tree) := by
  have hlen : t.avl_tree_array.length ≠ 0 := by omega
  simp [mkavl_find, mkavl_find_type_e_is_valid, mkavl_tree_is_valid, hlen, hk]

theorem mkavl_find_eval_le {t : MkavlTree α} {k : Nat} {key : α}
    (hk : k < t.avl_tree_array.length) :
    mkavl_find (some t) .le k (some key) true =
      (.success,
       mkavl_find_avl_lt (t.avl_tree_array.get ⟨k, hk⟩).cmp true key
         (t.avl_tree_array.get ⟨k, hk⟩).tree) := by
  have hlen : t.avl_tree_array.length ≠ 0 := by omega
  simp [mkavl_find, mkavl_find_type_e_is_valid, mkavl_tree_is_valid, hlen, hk]

theorem inorder_eq_of_mem_iff (SC : StrictCmp cmp) {t1 t2 : AvlTree α}
    (hb1 : IsBST cmp t1) (hb2 : IsBST cmp t2)
    (h : ∀ y, y ∈ t1.inorder ↔ y ∈ t2.inorder) : t1.inorder = t2.inorder := by
  haveI : IsAntisymm α (fun a b => cmp a b < 0) :=
    ⟨fun a b h1 h2 => absurd h2 (SC.asymm h1)⟩
  have hperm : t1.inorder.Perm t2.inorder :=
    (List.perm_ext_iff_of_nodup (hb1.nodup SC) (hb2.nodup SC)).2 h
  exact List.eq_of_perm_of_sorted hperm (hb1.sorted SC) (hb2.sorted SC)

/-- C1: for every tree index (a binary search tree under a lawful
comparator) and every lookup key, whether or not an equal item is
present, mkavl_find with GreaterThan returns the smallest item strictly
greater than the key, GreaterOrEqual returns the equal item when present
and otherwise the same result as GreaterThan, LessThan returns the
largest item strictly less than the key, LessOrEqual returns the equal
item when present and otherwise the same result as LessThan; in every
case, including when no item qualifies or the index is empty, the return
code is SUCCESS with the found item NULL (none) rather than an error. -/
theorem C1_directional_find (t : MkavlTree α) (k : Nat)
    (hk : k < t.avl_tree_array.length) (key : α) (idx : AvlIdx α)
    (hidx : t.avl_tree_array.get ⟨k, hk⟩ = idx)
    (SC : StrictCmp idx.cmp) (hb : IsBST idx.cmp idx.tree) :
    ((mkavl_find (some t) .gt k (some key) true).1 = .success ∧
       OptIsLeast idx.cmp (GtPred idx.cmp false key) idx.tree.inorder
         (mkavl_find (some t) .gt k (some key) true).2) ∧
    ((mkavl_find (some t) .ge k (some key) true).1 = .success ∧
       (key ∈ idx.tree.inorder →
         (mkavl_find (some t) .ge k (some key) true).2 = some key) ∧
       (key ∉ idx.tree.inorder →
         (mkavl_find (some t) .ge k (some key) true).2 =
           (mkavl_find (some t) .gt k (some key) true).2)) ∧
    ((mkavl_find (some t) .lt k (some key) true).1 = .success ∧
       OptIsGreatest idx.cmp (LtPred idx.cmp false key) idx.tree.inorder
         (mkavl_find (some t) .lt k (some key) true).2) ∧
    ((mkavl_find (some t) .le k (some key) true).1 = .success ∧
       (key ∈ idx.tree.inorder →
         (mkavl_find (some t) .le k (some key) true).2 = some key) ∧
       (key ∉ idx.tree.inorder →
         (mkavl_find (some t) .le k (some key) true).2 =
           (mkavl_find (some t) .lt k (some key) true).2)) := by
  subst hidx
  rw [mkavl_find_eval_gt hk, mkavl_find_eval_ge hk, mkavl_find_eval_lt hk,
      mkavl_find_eval_le hk]
  set idx := t.avl_tree_array.get ⟨k, hk⟩ with hidx
  have hgt_spec := mkavl_find_avl_gt_spec (t := idx.tree) SC hb false key
  have hge_spec := mkavl_find_avl_gt_spec (t := idx.tree) SC hb true key
  have hlt_spec := mkavl_find_avl_lt_spec (t := idx.tree) SC hb false key
  have hle_spec := mkavl_find_avl_lt_spec (t := idx.tree) SC hb true key
  refine ⟨⟨rfl, hgt_spec⟩, ⟨rfl, ?_, ?_⟩, ⟨rfl, hlt_spec⟩, ⟨rfl, ?_, ?_⟩⟩
  · intro hkey
    exact OptIsLeast_of_mem_nonstrict SC hkey hge_spec
  · intro hkey
    refine OptIsLeast_unique SC ?_ hge_spec hgt_spec
    intro z hz
    simp only [GtPred]
    norm_num
    constructor
    · intro h
      rcases lt_or_eq_of_le h with h1 | h1
      · exact h1
      · exact absurd (((SC.eq_iff key z).1 h1) ▸ hz) hkey
    · intro h
      exact le_of_lt h
  · intro hkey
    exact OptIsGreatest_of_mem_nonstrict SC hkey hle_spec
  · intro hkey
    refine OptIsGreatest_unique SC ?_ hle_spec hlt_spec
    intro z hz
    simp only [LtPred]
    norm_num
    constructor
    · intro h
      rcases lt_or_eq_of_le h with h1 | h1
      · exact h1
      · exact absurd (((SC.eq_iff key z).1 h1.symm) ▸ hz) hkey
    · intro h
      exact le_of_lt h

/-- Witness for C1 at a concrete input: the single-index tree holding 1
and 3, looked up with GreaterThan at key 2. -/
theorem C1_directional_find_witness :
    (mkavl_find (some exTree13) .gt 0 (some 2) true).1 = .success ∧
      OptIsLeast natCmp (GtPred natCmp false 2)
        (AvlTree.node (.node .nil 1 .nil) 3 .nil : AvlTree Nat).inorder
        (mkavl_find (some exTree13) .gt 0 (some 2) true).2 :=
  (C1_directional_find exTree13 0 (by simp [exTree13]) 2
    { cmp := natCmp, tree := .node (.node .nil 1 .nil) 3 .nil } rfl
    natCmp_strict
    (by
      refine ⟨⟨trivial, trivial, ?_, ?_⟩, trivial, ?_, ?_⟩ <;>
        (intro y hy; simp at hy) <;> subst hy <;> simp [natCmp])).1

/-! ## Evaluating mkavl_add and mkavl_remove -/

theorem mkavl_tree_is_valid_of_cons {t : MkavlTree α} {idx0 : AvlIdx α}
    {rest : List (AvlIdx α)} (harr : t.avl_tree_array = idx0 :: rest) :
    mkavl_tree_is_valid (some t) = true := by
  simp [mkavl_tree_is_valid, harr]

theorem mkavl_add_eval [DecidableEq α] {t : MkavlTree α} {idx0 : AvlIdx α}
    {rest : List (AvlIdx α)} (harr : t.avl_tree_array = idx0 :: rest)
    (x : α) :
    mkavl_add (some t) (some x) true =
      (let p0 := avl_insert idx0.cmp x idx0.tree
       let s := mkavl_add_scan x p0.1 rest
       let processed : List (AvlIdx α) :=
         { cmp := idx0.cmp, tree := p0.2 } :: s.1
       if s.2.1 then
         some (.success,
               some { t with
                      avl_tree_array := processed ++ s.2.2,
                      item_count :=
                        if p0.1 = none then t.item_count + 1
                        else t.item_count },
               p0.1)
       else if p0.1 = none then
         match mkavl_add_rollback x processed with
         | none => none
         | some processed' =>
           some (.eoosync,
                 some { t with avl_tree_array := processed' ++ s.2.2 },
                 none)
       else
         some (.eoosync,
               some { t with avl_tree_array := processed ++ s.2.2 },
               none)) := by
  rw [mkavl_add]
  rw [mkavl_tree_is_valid_of_cons harr]
  simp only [not_true, if_false, Bool.true_eq_false, ite_false]
  rw [harr]

theorem mkavl_remove_eval [DecidableEq α] {t : MkavlTree α}
    {idx0 : AvlIdx α} {rest : List (AvlIdx α)}
    (harr : t.avl_tree_array = idx0 :: rest) (x : α) :
    mkavl_remove (some t) (some x) true =
      (let p0 := avl_delete idx0.cmp x idx0.tree
       let s := mkavl_remove_scan x p0.1 rest
       let processed : List (AvlIdx α) :=
         { cmp := idx0.cmp, tree := p0.2 } :: s.1
       if s.2.1 then
         match p0.1 with
         | some fx =>
           if t.item_count = 0 then
             some (.eoosync,
                   some { t with avl_tree_array := processed ++ s.2.2 },
                   none)
           else
             some (.success,
                   some { t with
                          avl_tree_array := processed ++ s.2.2,
                          item_count := t.item_count - 1 },
                   some fx)
         | none =>
           some (.success,
                 some { t with avl_tree_array := processed ++ s.2.2 },
                 none)
       else
         match p0.1 with
         | none =>
           some (.eoosync,
                 some { t with avl_tree_array := processed ++ s.2.2 },
                 none)
         | some fx =>
           match mkavl_remove_rollback fx processed with
           | none => none
           | some processed' =>
             some (.eoosync,
                   some { t with avl_tree_array := processed' ++ s.2.2 },
                   none)) := by
  rw [mkavl_remove]
  rw [mkavl_tree_is_valid_of_cons harr]
  simp only [not_true, if_false, Bool.true_eq_false, ite_false]
  rw [harr]

theorem mkavl_add_scan_agree [DecidableEq α] {x : α} {first : Option α}
    {rest : List (AvlIdx α)}
    (hall : ∀ idx ∈ rest, (avl_insert idx.cmp x idx.tree).1 = first) :
    mkavl_add_scan x first rest =
      (rest.map (fun idx =>
         { cmp := idx.cmp, tree := (avl_insert idx.cmp x idx.tree).2 }),
       true, []) := by
  induction rest with
  | nil => rfl
  | cons idx rest ih =>
    rw [mkavl_add_scan]
    have h := hall idx (List.mem_cons_self _ _)
    simp only [h, if_pos, List.map_cons,
               ih (fun i hi => hall i (List.mem_cons_of_mem _ hi))]

theorem avl_insert_mem_iff (SC : StrictCmp cmp) {t : AvlTree α} {x : α}
    (hb : IsBST cmp t) (hx : x ∉ t.inorder) (y : α) :
    y ∈ (avl_insert cmp x t).2.inorder ↔ (y = x ∨ y ∈ t.inorder) := by
  rcases avl_insert_not_mem SC hb hx with ⟨_, _, h3⟩
  rw [h3.mem_iff, List.mem_cons]

theorem avl_insert_length (SC : StrictCmp cmp) {t : AvlTree α} {x : α}
    (hb : IsBST cmp t) (hx : x ∉ t.inorder) :
    (avl_insert cmp x t).2.inorder.length = t.inorder.length + 1 := by
  rcases avl_insert_not_mem SC hb hx with ⟨_, _, h3⟩
  rw [h3.length_eq, List.length_cons]

theorem avl_delete_mem_iff (SC : StrictCmp cmp) {t : AvlTree α} {x : α}
    (hb : IsBST cmp t) (hx : x ∈ t.inorder) (y : α) :
    y ∈ (avl_delete cmp x t).2.inorder ↔ (y ∈ t.inorder ∧ y ≠ x) := by
  rcases avl_delete_mem SC hb hx with ⟨_, _, h3⟩
  have hnd : (x :: (avl_delete cmp x t).2.inorder).Nodup :=
    h3.nodup (hb.nodup SC)
  rw [List.nodup_cons] at hnd
  constructor
  · intro hy
    refine ⟨h3.mem_iff.2 (List.mem_cons_of_mem _ hy), ?_⟩
    intro he
    subst he
    exact hnd.1 hy
  · intro ⟨hy, hne⟩
    rcases List.mem_cons.1 (h3.mem_iff.1 hy) with h | h
    · exact absurd h hne
    · exact h

theorem avl_delete_length (SC : StrictCmp cmp) {t : AvlTree α} {x : α}
    (hb : IsBST cmp t) (hx : x ∈ t.inorder) :
    (avl_delete cmp x t).2.inorder.length + 1 = t.inorder.length := by
  rcases avl_delete_mem SC hb hx with ⟨_, _, h3⟩
  rw [h3.length_eq, List.length_cons]

theorem mkavl_remove_scan_agree [DecidableEq α] {x : α} {first : Option α}
    {rest : List (AvlIdx α)}
    (hall : ∀ idx ∈ rest, (avl_delete idx.cmp x idx.tree).1 = first) :
    mkavl_remove_scan x first rest =
      (rest.map (fun idx =>
         { cmp := idx.cmp, tree := (avl_delete idx.cmp x idx.tree).2 }),
       true, []) := by
  induction rest with
  | nil => rfl
  | cons idx rest ih =>
    rw [mkavl_remove_scan]
    have h := hall idx (List.mem_cons_self _ _)
    simp only [h, if_pos, List.map_cons,
               ih (fun i hi => hall i (List.mem_cons_of_mem _ hi))]

/-! ## mkavl_add and mkavl_remove on a synchronized tree -/

theorem mkavl_add_synced_mem [DecidableEq α] {t : MkavlTree α}
    {idx0 : AvlIdx α} {rest : List (AvlIdx α)}
    (harr : t.avl_tree_array = idx0 :: rest) (hs : Synced t) {x : α}
    (hmem : x ∈ idx0.tree.inorder) :
    mkavl_add (some t) (some x) true = some (.success, some t, some x) := by
  have h0 : idx0 ∈ t.avl_tree_array := by
    rw [harr]; exact List.mem_cons_self _ _
  have hins0 := avl_insert_mem (hs.strict idx0 h0) (hs.bst idx0 h0) hmem
  have heach : ∀ idx ∈ rest,
      avl_insert idx.cmp x idx.tree = (some x, idx.tree) := by
    intro idx hidx
    have hi : idx ∈ t.avl_tree_array := by
      rw [harr]; exact List.mem_cons_of_mem _ hidx
    have hm : x ∈ idx.tree.inorder := (hs.mem_iff idx0 h0 idx hi x).1 hmem
    exact avl_insert_mem (hs.strict idx hi) (hs.bst idx hi) hm
  have hall : ∀ idx ∈ rest, (avl_insert idx.cmp x idx.tree).1 = some x := by
    intro idx hidx
    rw [heach idx hidx]
  have hmap : rest.map (fun idx =>
      ({ cmp := idx.cmp, tree := (avl_insert idx.cmp x idx.tree).2 } :
        AvlIdx α)) = rest := by
    have hcongr : ∀ idx ∈ rest,
        ({ cmp := idx.cmp, tree := (avl_insert idx.cmp x idx.tree).2 } :
          AvlIdx α) = idx := by
      intro idx hidx
      rw [heach idx hidx]
    rw [List.map_congr_left hcongr]
    simp
  rw [mkavl_add_eval harr]
  simp only [hins0, mkavl_add_scan_agree hall, hmap]
  simp only [List.append_nil, ite_true, reduceCtorEq, ite_false]
  rw [← harr]

theorem mkavl_add_synced_not_mem [DecidableEq α] {t : MkavlTree α}
    {idx0 : AvlIdx α} {rest : List (AvlIdx α)}
    (harr : t.avl_tree_array = idx0 :: rest) (hs : Synced t) {x : α}
    (hmem : x ∉ idx0.tree.inorder) :
    ∃ t', mkavl_add (some t) (some x) true =
        some (.success, some t', none) ∧
      t'.context = t.context ∧
      t'.item_count = t.item_count + 1 ∧
      t'.avl_tree_array.length = t.avl_tree_array.length ∧
      Synced t' ∧
      (∀ idx' ∈ t'.avl_tree_array, ∀ y,
         y ∈ idx'.tree.inorder ↔ (y = x ∨ y ∈ idx0.tree.inorder)) := by
  have h0 : idx0 ∈ t.avl_tree_array := by
    rw [harr]; exact List.mem_cons_self _ _
  rcases avl_insert_not_mem (hs.strict idx0 h0) (hs.bst idx0 h0) hmem with
    ⟨hins0, hb0', hp0⟩
  have hnm : ∀ idx ∈ t.avl_tree_array, x ∉ idx.tree.inorder := by
    intro idx hi hc
    exact hmem ((hs.mem_iff idx hi idx0 h0 x).1 hc)
  have hall : ∀ idx ∈ rest, (avl_insert idx.cmp x idx.tree).1 = none := by
    intro idx hidx
    have hi : idx ∈ t.avl_tree_array := by
      rw [harr]; exact List.mem_cons_of_mem _ hidx
    exact (avl_insert_not_mem (hs.strict idx hi) (hs.bst idx hi)
      (hnm idx hi)).1
  refine ⟨{ t with
            avl_tree_array :=
              { cmp := idx0.cmp, tree := (avl_insert idx0.cmp x idx0.tree).2 }
                :: rest.map (fun idx =>
                  { cmp := idx.cmp,
                    tree := (avl_insert idx.cmp x idx.tree).2 }),
            item_count := t.item_count + 1 }, ?_, rfl, rfl, ?_, ?_, ?_⟩
  · rw [mkavl_add_eval harr]
    simp only [hins0, mkavl_add_scan_agree hall]
    simp only [List.append_nil, ite_true]
  · simp [harr]
  · -- the new tree is synchronized
    -- a characterization of the entries of the new array
    have hentry : ∀ idx' ∈
        ({ cmp := idx0.cmp, tree := (avl_insert idx0.cmp x idx0.tree).2 }
          :: rest.map (fun idx =>
            ({ cmp := idx.cmp, tree := (avl_insert idx.cmp x idx.tree).2 } :
              AvlIdx α))),
        ∃ idx ∈ t.avl_tree_array,
          idx' = { cmp := idx.cmp,
                   tree := (avl_insert idx.cmp x idx.tree).2 } := by
      intro idx' hidx'
      rcases List.mem_cons.1 hidx' with h | h
      · exact ⟨idx0, h0, h⟩
      · rcases List.mem_map.1 h with ⟨idx, hidx, hEq⟩
        exact ⟨idx, by rw [harr]; exact List.mem_cons_of_mem _ hidx, hEq.symm⟩
    have hmemnew : ∀ idx ∈ t.avl_tree_array, ∀ y,
        y ∈ (avl_insert idx.cmp x idx.tree).2.inorder ↔
          (y = x ∨ y ∈ idx0.tree.inorder) := by
      intro idx hi y
      rw [avl_insert_mem_iff (hs.strict idx hi) (hs.bst idx hi) (hnm idx hi) y]
      rw [hs.mem_iff idx hi idx0 h0 y]
    constructor
    · simp
    · intro idx' hidx'
      rcases hentry idx' hidx' with ⟨idx, hi, hEq⟩
      subst hEq
      exact hs.strict idx hi
    · intro idx' hidx'
      rcases hentry idx' hidx' with ⟨idx, hi, hEq⟩
      subst hEq
      exact (avl_insert_not_mem (hs.strict idx hi) (hs.bst idx hi)
        (hnm idx hi)).2.1
    · intro idx' hidx' idx'' hidx'' y
      rcases hentry idx' hidx' with ⟨idx, hi, hEq⟩
      rcases hentry idx'' hidx'' with ⟨idx2, hi2, hEq2⟩
      subst hEq
      subst hEq2
      rw [hmemnew idx hi y, hmemnew idx2 hi2 y]
    · intro idx' hidx'
      rcases hentry idx' hidx' with ⟨idx, hi, hEq⟩
      subst hEq
      simp only
      rw [avl_insert_length (hs.strict idx hi) (hs.bst idx hi) (hnm idx hi)]
      rw [hs.count idx hi]
  · intro idx' hidx' y
    have hentry : ∃ idx ∈ t.avl_tree_array,
        idx' = { cmp := idx.cmp,
                 tree := (avl_insert idx.cmp x idx.tree).2 } := by
      rcases List.mem_cons.1 hidx' with h | h
      · exact ⟨idx0, h0, h⟩
      · rcases List.mem_map.1 h with ⟨idx, hidx, hEq⟩
        exact ⟨idx, by rw [harr]; exact List.mem_cons_of_mem _ hidx, hEq.symm⟩
    rcases hentry with ⟨idx, hi, hEq⟩
    subst hEq
    have hnmi : x ∉ idx.tree.inorder := hnm idx hi
    rw [avl_insert_mem_iff (hs.strict idx hi) (hs.bst idx hi) hnmi y]
    rw [hs.mem_iff idx hi idx0 h0 y]

theorem mkavl_remove_synced_not_mem [DecidableEq α] {t : MkavlTree α}
    {idx0 : AvlIdx α} {rest : List (AvlIdx α)}
    (harr : t.avl_tree_array = idx0 :: rest) (hs : Synced t) {x : α}
    (hmem : x ∉ idx0.tree.inorder) :
    mkavl_remove (some t) (some x) true = some (.success, some t, none) := by
  have h0 : idx0 ∈ t.avl_tree_array := by
    rw [harr]; exact List.mem_cons_self _ _
  have hdel0 := avl_delete_not_mem (hs.strict idx0 h0) (hs.bst idx0 h0) hmem
  have heach : ∀ idx ∈ rest,
      avl_delete idx.cmp x idx.tree = (none, idx.tree) := by
    intro idx hidx
    have hi : idx ∈ t.avl_tree_array := by
      rw [harr]; exact List.mem_cons_of_mem _ hidx
    have hm : x ∉ idx.tree.inorder := by
      intro hc
      exact hmem ((hs.mem_iff idx hi idx0 h0 x).1 hc)
    exact avl_delete_not_mem (hs.strict idx hi) (hs.bst idx hi) hm
  have hall : ∀ idx ∈ rest, (avl_delete idx.cmp x idx.tree).1 = none := by
    intro idx hidx
    rw [heach idx hidx]
  have hmap : rest.map (fun idx =>
      ({ cmp := idx.cmp, tree := (avl_delete idx.cmp x idx.tree).2 } :
        AvlIdx α)) = rest := by
    have hcongr : ∀ idx ∈ rest,
        ({ cmp := idx.cmp, tree := (avl_delete idx.cmp x idx.tree).2 } :
          AvlIdx α) = idx := by
      intro idx hidx
      rw [heach idx hidx]
    rw [List.map_congr_left hcongr]
    simp
  rw [mkavl_remove_eval harr]
  simp only [hdel0, mkavl_remove_scan_agree hall, hmap]
  simp only [List.append_nil, ite_true]
  rw [← harr]

theorem mkavl_remove_synced_mem [DecidableEq α] {t : MkavlTree α}
    {idx0 : AvlIdx α} {rest : List (AvlIdx α)}
    (harr : t.avl_tree_array = idx0 :: rest) (hs : Synced t) {x : α}
    (hmem : x ∈ idx0.tree.inorder) :
    ∃ t', mkavl_remove (some t) (some x) true =
        some (.success, some t', some x) ∧
      t'.context = t.context ∧
      t'.item_count + 1 = t.item_count ∧
      t'.avl_tree_array.length = t.avl_tree_array.length ∧
      Synced t' ∧
      (∀ idx' ∈ t'.avl_tree_array, ∀ y,
         y ∈ idx'.tree.inorder ↔ (y ∈ idx0.tree.inorder ∧ y ≠ x)) := by
  have h0 : idx0 ∈ t.avl_tree_array := by
    rw [harr]; exact List.mem_cons_self _ _
  have hcount0 : idx0.tree.inorder.length = t.item_count := hs.count idx0 h0
  have hpos : t.item_count ≠ 0 := by
    rw [← hcount0]
    have := List.length_pos.2 (List.ne_nil_of_mem hmem)
    omega
  have hm : ∀ idx ∈ t.avl_tree_array, x ∈ idx.tree.inorder := by
    intro idx hi
    exact (hs.mem_iff idx0 h0 idx hi x).1 hmem
  rcases avl_delete_mem (hs.strict idx0 h0) (hs.bst idx0 h0) hmem with
    ⟨hdel0, hb0', hp0⟩
  have hall : ∀ idx ∈ rest, (avl_delete idx.cmp x idx.tree).1 = some x := by
    intro idx hidx
    have hi : idx ∈ t.avl_tree_array := by
      rw [harr]; exact List.mem_cons_of_mem _ hidx
    exact (avl_delete_mem (hs.strict idx hi) (hs.bst idx hi) (hm idx hi)).1
  refine ⟨{ t with
            avl_tree_array :=
              { cmp := idx0.cmp, tree := (avl_delete idx0.cmp x idx0.tree).2 }
                :: rest.map (fun idx =>
                  { cmp := idx.cmp,
                    tree := (avl_delete idx.cmp x idx.tree).2 }),
            item_count := t.item_count - 1 }, ?_, rfl,
          by show t.item_count - 1 + 1 = t.item_count; omega, ?_, ?_, ?_⟩
  · rw [mkavl_remove_eval harr]
    simp only [hdel0, mkavl_remove_scan_agree hall]
    simp only [List.append_nil, ite_true, hpos, ite_false]
  · simp [harr]
  · -- the new tree is synchronized
    have hentry : ∀ idx' ∈
        ({ cmp := idx0.cmp, tree := (avl_delete idx0.cmp x idx0.tree).2 }
          :: rest.map (fun idx =>
            ({ cmp := idx.cmp, tree := (avl_delete idx.cmp x idx.tree).2 } :
              AvlIdx α))),
        ∃ idx ∈ t.avl_tree_array,
          idx' = { cmp := idx.cmp,
                   tree := (avl_delete idx.cmp x idx.tree).2 } := by
      intro idx' hidx'
      rcases List.mem_cons.1 hidx' with h | h
      · exact ⟨idx0, h0, h⟩
      · rcases List.mem_map.1 h with ⟨idx, hidx, hEq⟩
        exact ⟨idx, by rw [harr]; exact List.mem_cons_of_mem _ hidx, hEq.symm⟩
    have hmemnew : ∀ idx ∈ t.avl_tree_array, ∀ y,
        y ∈ (avl_delete idx.cmp x idx.tree).2.inorder ↔
          (y ∈ idx0.tree.inorder ∧ y ≠ x) := by
      intro idx hi y
      rw [avl_delete_mem_iff (hs.strict idx hi) (hs.bst idx hi) (hm idx hi) y]
      rw [hs.mem_iff idx hi idx0 h0 y]
    constructor
    · simp
    · intro idx' hidx'
      rcases hentry idx' hidx' with ⟨idx, hi, hEq⟩
      subst hEq
      exact hs.strict idx hi
    · intro idx' hidx'
      rcases hentry idx' hidx' with ⟨idx, hi, hEq⟩
      subst hEq
      exact (avl_delete_mem (hs.strict idx hi) (hs.bst idx hi)
        (hm idx hi)).2.1
    · intro idx' hidx' idx'' hidx'' y
      rcases hentry idx' hidx' with ⟨idx, hi, hEq⟩
      rcases hentry idx'' hidx'' with ⟨idx2, hi2, hEq2⟩
      subst hEq
      subst hEq2
      rw [hmemnew idx hi y, hmemnew idx2 hi2 y]
    · intro idx' hidx'
      rcases hentry idx' hidx' with ⟨idx, hi, hEq⟩
      subst hEq
      simp only
      have := avl_delete_length (hs.strict idx hi) (hs.bst idx hi) (hm idx hi)
      have hc := hs.count idx hi
      omega
  · intro idx' hidx' y
    have hentry : ∃ idx ∈ t.avl_tree_array,
        idx' = { cmp := idx.cmp,
                 tree := (avl_delete idx.cmp x idx.tree).2 } := by
      rcases List.mem_cons.1 hidx' with h | h
      · exact ⟨idx0, h0, h⟩
      · rcases List.mem_map.1 h with ⟨idx, hidx, hEq⟩
        exact ⟨idx, by rw [harr]; exact List.mem_cons_of_mem _ hidx, hEq.symm⟩
    rcases hentry with ⟨idx, hi, hEq⟩
    subst hEq
    rw [avl_delete_mem_iff (hs.strict idx hi) (hs.bst idx hi) (hm idx hi) y]
    rw [hs.mem_iff idx hi idx0 h0 y]

theorem mkavl_apply_op_synced [DecidableEq α] {t : MkavlTree α}
    (hs : Synced t) {op : MkavlOp α} {t' : MkavlTree α}
    (h : mkavl_apply_op t op = some t') : Synced t' := by
  rcases List.exists_cons_of_ne_nil hs.ne with ⟨idx0, rest, harr⟩
  cases op with
  | add x =>
    by_cases hmem : x ∈ idx0.tree.inorder
    · rw [mkavl_apply_op, mkavl_add_synced_mem harr hs hmem] at h
      simp only [Option.some.injEq] at h
      subst h
      exact hs
    · rcases mkavl_add_synced_not_mem harr hs hmem with
        ⟨t2, hEq, _, _, _, hsync, _⟩
      rw [mkavl_apply_op, hEq] at h
      simp only [Option.some.injEq] at h
      subst h
      exact hsync
  | remove x =>
    by_cases hmem : x ∈ idx0.tree.inorder
    · rcases mkavl_remove_synced_mem harr hs hmem with
        ⟨t2, hEq, _, _, _, hsync, _⟩
      rw [mkavl_apply_op, hEq] at h
      simp only [Option.some.injEq] at h
      subst h
      exact hsync
    · rw [mkavl_apply_op, mkavl_remove_synced_not_mem harr hs hmem] at h
      simp only [Option.some.injEq] at h
      subst h
      exact hs

/-- C2: starting from any synchronized multi-key tree, after every
sequence of successful aggregate mkavl_add / mkavl_remove operations
(with no intervening single-index operations) the resulting tree is again
synchronized: all M index trees hold exactly the same item set, and the
cardinality of that set equals the live item count.  Every intermediate
state is covered by instantiating the sequence with the corresponding
prefix. -/
theorem C2_sync_invariant [DecidableEq α] (t : MkavlTree α) (hs : Synced t)
    (ops : List (MkavlOp α)) (t' : MkavlTree α)
    (h : mkavl_apply_ops t ops = some t') :
    Synced t' ∧
      (∀ idx ∈ t'.avl_tree_array, ∀ idx' ∈ t'.avl_tree_array, ∀ x,
         x ∈ idx.tree.inorder ↔ x ∈ idx'.tree.inorder) ∧
      (∀ idx ∈ t'.avl_tree_array,
         idx.tree.inorder.toFinset.card = t'.item_count) := by
  have hsync : Synced t' := by
    induction ops generalizing t with
    | nil =>
      rw [mkavl_apply_ops] at h
      simp only [Option.some.injEq] at h
      subst h
      exact hs
    | cons op ops ih =>
      rw [mkavl_apply_ops] at h
      cases hstep : mkavl_apply_op t op with
      | none => rw [hstep] at h; exact absurd h (by simp)
      | some t2 =>
        rw [hstep] at h
        exact ih t2 (mkavl_apply_op_synced hs hstep) h
  refine ⟨hsync, hsync.mem_iff, ?_⟩
  intro idx hi
  have hnd : idx.tree.inorder.Nodup :=
    (hsync.bst idx hi).nodup (hsync.strict idx hi)
  rw [List.toFinset_card_of_nodup hnd]
  exact hsync.count idx hi

/-- The concrete empty two-index tree is synchronized. -/
theorem synced_exTreeEmpty2 : Synced exTreeEmpty2 := by
  constructor
  · simp [exTreeEmpty2]
  · intro idx hidx
    simp only [exTreeEmpty2, List.mem_cons, List.mem_singleton] at hidx
    rcases hidx with h | h | h <;> first
      | (subst h; exact natCmp_strict)
      | simp at h
  · intro idx hidx
    simp only [exTreeEmpty2, List.mem_cons, List.mem_singleton] at hidx
    rcases hidx with h | h | h <;> first
      | (subst h; simp)
      | simp at h
  · intro idx h1 idx' h2 x
    simp only [exTreeEmpty2, List.mem_cons, List.mem_singleton] at h1 h2
    rcases h1 with h1 | h1 | h1 <;> rcases h2 with h2 | h2 | h2 <;> first
      | (subst h1; subst h2; simp)
      | simp at h1 h2
  · intro idx hidx
    simp only [exTreeEmpty2, List.mem_cons, List.mem_singleton] at hidx
    rcases hidx with h | h | h <;> first
      | (subst h; simp [exTreeEmpty2])
      | simp at h

/-- The concrete one-item single-index tree is synchronized. -/
theorem synced_exTreeOne : Synced exTreeOne := by
  constructor
  · simp [exTreeOne]
  · intro idx hidx
    simp only [exTreeOne, List.mem_singleton] at hidx
    subst hidx
    exact natCmp_strict
  · intro idx hidx
    simp only [exTreeOne, List.mem_singleton] at hidx
    subst hidx
    simp [IsBST]
  · intro idx h1 idx' h2 x
    simp only [exTreeOne, List.mem_singleton] at h1 h2
    subst h1
    subst h2
    simp
  · intro idx hidx
    simp only [exTreeOne, List.mem_singleton] at hidx
    subst hidx
    simp [exTreeOne]

/-- The concrete one-item two-index tree is synchronized. -/
theorem synced_exTreeOne2 : Synced exTreeOne2 := by
  constructor
  · simp [exTreeOne2]
  · intro idx hidx
    simp only [exTreeOne2, List.mem_cons, List.mem_singleton] at hidx
    rcases hidx with h | h | h <;> first
      | (subst h; exact natCmp_strict)
      | simp at h
  · intro idx hidx
    simp only [exTreeOne2, List.mem_cons, List.mem_singleton] at hidx
    rcases hidx with h | h | h <;> first
      | (subst h; simp [IsBST])
      | simp at h
  · intro idx h1 idx' h2 x
    simp only [exTreeOne2, List.mem_cons, List.mem_singleton] at h1 h2
    rcases h1 with h1 | h1 | h1 <;> rcases h2 with h2 | h2 | h2 <;> first
      | (subst h1; subst h2; simp)
      | simp at h1 h2
  · intro idx hidx
    simp only [exTreeOne2, List.mem_cons, List.mem_singleton] at hidx
    rcases hidx with h | h | h <;> first
      | (subst h; simp [exTreeOne2])
      | simp at h

/-- The concrete two-item single-index tree is synchronized. -/
theorem synced_exTree12 : Synced exTree12 := by
  constructor
  · simp [exTree12]
  · intro idx hidx
    simp only [exTree12, List.mem_singleton] at hidx
    subst hidx
    exact natCmp_strict
  · intro idx hidx
    simp only [exTree12, List.mem_singleton] at hidx
    subst hidx
    refine ⟨trivial, ⟨trivial, trivial, ?_, ?_⟩, ?_, ?_⟩ <;>
      (intro y hy; simp at hy) <;> subst hy <;> simp [natCmp]
  · intro idx h1 idx' h2 x
    simp only [exTree12, List.mem_singleton] at h1 h2
    subst h1
    subst h2
    simp
  · intro idx hidx
    simp only [exTree12, List.mem_singleton] at hidx
    subst hidx
    simp [exTree12]

/-- Witness for C2 at a concrete input: one successful aggregate add of
the item 5 into the empty two-index tree. -/
theorem C2_sync_invariant_witness :
    Synced ({ context := none,
              avl_tree_array :=
                [{ cmp := natCmp, tree := .node .nil 5 .nil },
                 { cmp := natCmp, tree := .node .nil 5 .nil }],
              item_count := 1 } : MkavlTree Nat) :=
  (C2_sync_invariant exTreeEmpty2 synced_exTreeEmpty2 [.add 5] _ rfl).1

theorem mkavl_add_all_spec [DecidableEq α] {t : MkavlTree α} (hs : Synced t)
    {idx0 : AvlIdx α} {rest : List (AvlIdx α)}
    (harr : t.avl_tree_array = idx0 :: rest) (xs : List α) :
    ∃ tf res, mkavl_add_all t xs = some (tf, res) ∧ Synced tf ∧
      (∀ idxf ∈ tf.avl_tree_array,
         idxf.tree.inorder.toFinset =
           idx0.tree.inorder.toFinset ∪ xs.toFinset) ∧
      ((res.filter (fun e => e.isSome)).length +
          (idx0.tree.inorder.toFinset ∪ xs.toFinset).card =
        xs.length + idx0.tree.inorder.toFinset.card) := by
  induction xs generalizing t idx0 rest with
  | nil =>
    refine ⟨t, [], rfl, hs, ?_, by simp⟩
    intro idxf hf
    have h0 : idx0 ∈ t.avl_tree_array := by
      rw [harr]; exact List.mem_cons_self _ _
    simp only [List.toFinset_nil, Finset.union_empty]
    ext y
    simp only [List.mem_toFinset]
    exact hs.mem_iff idxf hf idx0 h0 y
  | cons x xs ih =>
    have h0 : idx0 ∈ t.avl_tree_array := by
      rw [harr]; exact List.mem_cons_self _ _
    by_cases hmem : x ∈ idx0.tree.inorder
    · -- duplicate: the tree is unchanged and the result is non-null
      have hstep := mkavl_add_synced_mem harr hs hmem
      rcases ih hs harr with ⟨tf, res, hfold, hsf, hsets, hcard⟩
      refine ⟨tf, some x :: res, ?_, hsf, ?_, ?_⟩
      · rw [mkavl_add_all, hstep]
        simp only [hfold, Option.map_some']
      · intro idxf hf
        rw [hsets idxf hf]
        have hx : x ∈ idx0.tree.inorder.toFinset := List.mem_toFinset.2 hmem
        rw [List.toFinset_cons, Finset.union_insert,
            Finset.insert_eq_self.2 (Finset.mem_union_left _ hx)]
      · have hx : x ∈ idx0.tree.inorder.toFinset := List.mem_toFinset.2 hmem
        rw [List.toFinset_cons, Finset.union_insert,
            Finset.insert_eq_self.2 (Finset.mem_union_left _ hx)]
        have hlen : ((some x :: res).filter (fun e => e.isSome)).length =
            (res.filter (fun e => e.isSome)).length + 1 := by simp
        rw [hlen, List.length_cons]
        omega
    · -- new item: the count grows and the result is null
      rcases mkavl_add_synced_not_mem harr hs hmem with
        ⟨t2, hstep, _, hcnt2, _, hs2, hmem2⟩
      rcases List.exists_cons_of_ne_nil hs2.ne with ⟨idx2, rest2, harr2⟩
      have h2 : idx2 ∈ t2.avl_tree_array := by
        rw [harr2]; exact List.mem_cons_self _ _
      have hset2 : idx2.tree.inorder.toFinset =
          insert x idx0.tree.inorder.toFinset := by
        ext y
        simp only [List.mem_toFinset, Finset.mem_insert]
        exact hmem2 idx2 h2 y
      rcases ih hs2 harr2 with ⟨tf, res, hfold, hsf, hsets, hcard⟩
      refine ⟨tf, none :: res, ?_, hsf, ?_, ?_⟩
      · rw [mkavl_add_all, hstep]
        simp only [hfold, Option.map_some']
      · intro idxf hf
        rw [hsets idxf hf, hset2, List.toFinset_cons, Finset.union_insert,
            Finset.insert_union]
      · have hx : x ∉ idx0.tree.inorder.toFinset := by
          simp only [List.mem_toFinset]
          exact hmem
        rw [hset2] at hcard
        rw [List.toFinset_cons, Finset.union_insert]
        rw [Finset.insert_union] at hcard
        have hxcard : (insert x idx0.tree.inorder.toFinset).card =
            idx0.tree.inorder.toFinset.card + 1 :=
          Finset.card_insert_of_not_mem hx
        have hlen : ((none :: res).filter (fun e => e.isSome)).length =
            (res.filter (fun e => e.isSome)).length := by simp
        rw [hlen, List.length_cons]
        omega

theorem avl_delete_insert_cancel (SC : StrictCmp cmp) {t : AvlTree α}
    {x : α} (hb : IsBST cmp t) (hx : x ∉ t.inorder) :
    avl_delete cmp x (avl_insert cmp x t).2 = (some x, t) := by
  induction t with
  | nil =>
    show avl_delete cmp x (AvlTree.node .nil x .nil) = (some x, .nil)
    simp [avl_delete, SC.cmp_self, pullMin]
  | node l y r ihl ihr =>
    rcases hb with ⟨hbl, hbr, hly, hyr⟩
    have hxl : x ∉ l.inorder := fun h => hx (by simp [h])
    have hxr : x ∉ r.inorder := fun h => hx (by simp [h])
    have hxy : x ≠ y := fun h => hx (by simp [h])
    rcases lt_trichotomy (cmp x y) 0 with hlt | heq | hgt
    · have hins : (avl_insert cmp x (AvlTree.node l y r)).2 =
          .node (avl_insert cmp x l).2 y r := by
        rw [avl_insert]
        simp [hlt]
      rw [hins, avl_delete]
      simp only [hlt, if_pos, ihl hbl hxl]
    · exact absurd ((SC.eq_iff x y).1 heq) hxy
    · have hnlt : ¬ cmp x y < 0 := by omega
      have hins : (avl_insert cmp x (AvlTree.node l y r)).2 =
          .node l y (avl_insert cmp x r).2 := by
        rw [avl_insert]
        simp [hnlt, hgt]
      rw [hins, avl_delete]
      simp only [hnlt, if_neg, hgt, if_pos, ihr hbr hxr]
      simp

theorem avl_insert_delete_restore (SC : StrictCmp cmp) {t : AvlTree α}
    {x : α} (hb : IsBST cmp t) (hx : x ∈ t.inorder) :
    (avl_insert cmp x (avl_delete cmp x t).2).1 = none ∧
      (avl_insert cmp x (avl_delete cmp x t).2).2.inorder = t.inorder := by
  rcases avl_delete_mem SC hb hx with ⟨_, hb', _⟩
  have hx' : x ∉ (avl_delete cmp x t).2.inorder := by
    intro hc
    exact ((avl_delete_mem_iff SC hb hx x).1 hc).2 rfl
  rcases avl_insert_not_mem SC hb' hx' with ⟨h1, hb'', _⟩
  refine ⟨h1, ?_⟩
  refine inorder_eq_of_mem_iff SC hb'' hb ?_
  intro y
  rw [avl_insert_mem_iff SC hb' hx' y, avl_delete_mem_iff SC hb hx y]
  constructor
  · intro h
    rcases h with h | h
    · subst h; exact hx
    · exact h.1
  · intro h
    by_cases hyx : y = x
    · exact Or.inl hyx
    · exact Or.inr ⟨h, hyx⟩

theorem mkavl_add_scan_mismatch [DecidableEq α] {x : α} {first : Option α}
    {pre post : List (AvlIdx α)} {idxJ : AvlIdx α}
    (hpre : ∀ idx ∈ pre, (avl_insert idx.cmp x idx.tree).1 = first)
    (hJ : (avl_insert idxJ.cmp x idxJ.tree).1 ≠ first) :
    mkavl_add_scan x first (pre ++ idxJ :: post) =
      (pre.map (fun idx =>
         { cmp := idx.cmp, tree := (avl_insert idx.cmp x idx.tree).2 })
         ++ [{ cmp := idxJ.cmp, tree := (avl_insert idxJ.cmp x idxJ.tree).2 }],
       false, post) := by
  induction pre with
  | nil =>
    rw [List.nil_append, mkavl_add_scan]
    simp [hJ]
  | cons idx pre ih =>
    rw [List.cons_append, mkavl_add_scan]
    have h := hpre idx (List.mem_cons_self _ _)
    simp only [h, if_pos,
               ih (fun i hi => hpre i (List.mem_cons_of_mem _ hi)),
               List.map_cons, List.cons_append]

theorem mkavl_remove_scan_mismatch [DecidableEq α] {x : α}
    {first : Option α} {pre post : List (AvlIdx α)} {idxJ : AvlIdx α}
    (hpre : ∀ idx ∈ pre, (avl_delete idx.cmp x idx.tree).1 = first)
    (hJ : (avl_delete idxJ.cmp x idxJ.tree).1 ≠ first) :
    mkavl_remove_scan x first (pre ++ idxJ :: post) =
      (pre.map (fun idx =>
         { cmp := idx.cmp, tree := (avl_delete idx.cmp x idx.tree).2 })
         ++ [{ cmp := idxJ.cmp, tree := (avl_delete idxJ.cmp x idxJ.tree).2 }],
       false, post) := by
  induction pre with
  | nil =>
    rw [List.nil_append, mkavl_remove_scan]
    simp [hJ]
  | cons idx pre ih =>
    rw [List.cons_append, mkavl_remove_scan]
    have h := hpre idx (List.mem_cons_self _ _)
    simp only [h, if_pos,
               ih (fun i hi => hpre i (List.mem_cons_of_mem _ hi)),
               List.map_cons, List.cons_append]

theorem mkavl_add_rollback_eval [DecidableEq α] {x : α}
    {l : List (AvlIdx α)}
    (h : ∀ idx ∈ l, (avl_delete idx.cmp x idx.tree).1 ≠ none) :
    mkavl_add_rollback x l =
      some (l.map (fun idx =>
        { cmp := idx.cmp, tree := (avl_delete idx.cmp x idx.tree).2 })) := by
  induction l with
  | nil => rfl
  | cons idx l ih =>
    rw [mkavl_add_rollback]
    cases hd : (avl_delete idx.cmp x idx.tree).1 with
    | none => exact absurd hd (h idx (List.mem_cons_self _ _))
    | some d =>
      simp only [ih (fun i hi => h i (List.mem_cons_of_mem _ hi)),
                 Option.map_some', List.map_cons]

theorem mkavl_remove_rollback_eval [DecidableEq α] {fx : α}
    {l : List (AvlIdx α)}
    (h : ∀ idx ∈ l, (avl_insert idx.cmp fx idx.tree).1 = none) :
    mkavl_remove_rollback fx l =
      some (l.map (fun idx =>
        { cmp := idx.cmp, tree := (avl_insert idx.cmp fx idx.tree).2 })) := by
  induction l with
  | nil => rfl
  | cons idx l ih =>
    rw [mkavl_remove_rollback]
    rw [h idx (List.mem_cons_self _ _)]
    simp only [ih (fun i hi => h i (List.mem_cons_of_mem _ hi)),
               Option.map_some', List.map_cons]

theorem mkavl_add_oosync_mem0 [DecidableEq α] {t : MkavlTree α} {x : α}
    {idx0 idxJ : AvlIdx α} {pre post : List (AvlIdx α)}
    (harr : t.avl_tree_array = idx0 :: pre ++ idxJ :: post)
    (hstrict : ∀ idx ∈ t.avl_tree_array, StrictCmp idx.cmp)
    (hbst : ∀ idx ∈ t.avl_tree_array, IsBST idx.cmp idx.tree)
    (hpre : ∀ idx ∈ pre, (x ∈ idx.tree.inorder ↔ x ∈ idx0.tree.inorder))
    (hmem0 : x ∈ idx0.tree.inorder) (hJ : x ∉ idxJ.tree.inorder) :
    mkavl_add (some t) (some x) true =
      some (.eoosync,
            some { t with avl_tree_array :=
                     idx0 :: pre ++
                       ({ cmp := idxJ.cmp,
                          tree := (avl_insert idxJ.cmp x idxJ.tree).2 }
                         :: post) },
            none) := by
  have h0 : idx0 ∈ t.avl_tree_array := by
    rw [harr]; exact List.mem_cons_self _ _
  have hJm : idxJ ∈ t.avl_tree_array := by
    rw [harr]
    exact List.mem_cons_of_mem _
      (List.mem_append.2 (Or.inr (List.mem_cons_self _ _)))
  have hpm : ∀ idx ∈ pre, idx ∈ t.avl_tree_array := by
    intro idx hi
    rw [harr]
    exact List.mem_cons_of_mem _ (List.mem_append.2 (Or.inl hi))
  have hins0 := avl_insert_mem (hstrict idx0 h0) (hbst idx0 h0) hmem0
  have hpre_each : ∀ idx ∈ pre,
      avl_insert idx.cmp x idx.tree = (some x, idx.tree) := by
    intro idx hi
    exact avl_insert_mem (hstrict idx (hpm idx hi)) (hbst idx (hpm idx hi))
      ((hpre idx hi).2 hmem0)
  have hprescan : ∀ idx ∈ pre,
      (avl_insert idx.cmp x idx.tree).1 = some x := by
    intro idx hi
    rw [hpre_each idx hi]
  have hJne : (avl_insert idxJ.cmp x idxJ.tree).1 ≠ some x := by
    rw [(avl_insert_not_mem (hstrict idxJ hJm) (hbst idxJ hJm) hJ).1]
    simp
  have hmap : pre.map (fun idx =>
      ({ cmp := idx.cmp, tree := (avl_insert idx.cmp x idx.tree).2 } :
        AvlIdx α)) = pre := by
    have hc : ∀ idx ∈ pre,
        ({ cmp := idx.cmp, tree := (avl_insert idx.cmp x idx.tree).2 } :
          AvlIdx α) = idx := by
      intro idx hi
      rw [hpre_each idx hi]
    rw [List.map_congr_left hc]
    simp
  rw [mkavl_add_eval harr]
  simp only [hins0, List.append_eq]
  rw [mkavl_add_scan_mismatch hprescan hJne]
  simp only [hmap, Bool.false_eq_true, if_false, reduceCtorEq, ite_false]
  rw [List.cons_append, List.append_assoc, List.singleton_append]
  rfl

theorem mkavl_add_oosync_not_mem0 [DecidableEq α] {t : MkavlTree α} {x : α}
    {idx0 idxJ : AvlIdx α} {pre post : List (AvlIdx α)}
    (harr : t.avl_tree_array = idx0 :: pre ++ idxJ :: post)
    (hstrict : ∀ idx ∈ t.avl_tree_array, StrictCmp idx.cmp)
    (hbst : ∀ idx ∈ t.avl_tree_array, IsBST idx.cmp idx.tree)
    (hpre : ∀ idx ∈ pre, (x ∈ idx.tree.inorder ↔ x ∈ idx0.tree.inorder))
    (hmem0 : x ∉ idx0.tree.inorder) (hJ : x ∈ idxJ.tree.inorder) :
    mkavl_add (some t) (some x) true =
      some (.eoosync,
            some { t with avl_tree_array :=
                     idx0 :: pre ++
                       ({ cmp := idxJ.cmp,
                          tree := (avl_delete idxJ.cmp x idxJ.tree).2 }
                         :: post) },
            none) := by
  have h0 : idx0 ∈ t.avl_tree_array := by
    rw [harr]; exact List.mem_cons_self _ _
  have hJm : idxJ ∈ t.avl_tree_array := by
    rw [harr]
    exact List.mem_cons_of_mem _
      (List.mem_append.2 (Or.inr (List.mem_cons_self _ _)))
  have hpm : ∀ idx ∈ pre, idx ∈ t.avl_tree_array := by
    intro idx hi
    rw [harr]
    exact List.mem_cons_of_mem _ (List.mem_append.2 (Or.inl hi))
  have hpre_not : ∀ idx ∈ pre, x ∉ idx.tree.inorder := by
    intro idx hi hc
    exact hmem0 ((hpre idx hi).1 hc)
  have hins0_1 : (avl_insert idx0.cmp x idx0.tree).1 = none :=
    (avl_insert_not_mem (hstrict idx0 h0) (hbst idx0 h0) hmem0).1
  have hprescan : ∀ idx ∈ pre,
      (avl_insert idx.cmp x idx.tree).1 = none := by
    intro idx hi
    exact (avl_insert_not_mem (hstrict idx (hpm idx hi))
      (hbst idx (hpm idx hi)) (hpre_not idx hi)).1
  have hJins := avl_insert_mem (hstrict idxJ hJm) (hbst idxJ hJm) hJ
  have hJne : (avl_insert idxJ.cmp x idxJ.tree).1 ≠ none := by
    rw [hJins]
    simp
  have hcancel0 := avl_delete_insert_cancel (hstrict idx0 h0) (hbst idx0 h0)
    hmem0
  have hroll : ∀ idx ∈
      (({ cmp := idx0.cmp, tree := (avl_insert idx0.cmp x idx0.tree).2 } :
          AvlIdx α) ::
        (pre.map (fun i =>
          ({ cmp := i.cmp, tree := (avl_insert i.cmp x i.tree).2 } :
            AvlIdx α)) ++
         [{ cmp := idxJ.cmp, tree := idxJ.tree }])),
      (avl_delete idx.cmp x idx.tree).1 ≠ none := by
    intro idx hi
    rcases List.mem_cons.1 hi with h | h
    · subst h
      simp only
      rw [hcancel0]
      simp
    · rcases List.mem_append.1 h with h | h
      · rcases List.mem_map.1 h with ⟨i, hi2, hEq⟩
        subst hEq
        simp only
        rw [avl_delete_insert_cancel (hstrict i (hpm i hi2))
          (hbst i (hpm i hi2)) (hpre_not i hi2)]
        simp
      · have hEq := List.mem_singleton.1 h
        subst hEq
        simp only
        rw [(avl_delete_mem (hstrict idxJ hJm) (hbst idxJ hJm) hJ).1]
        simp
  rw [mkavl_add_eval harr]
  simp only [hins0_1, List.append_eq]
  rw [mkavl_add_scan_mismatch hprescan hJne]
  simp only [hJins, Bool.false_eq_true, if_false, ite_true, eq_self_iff_true]
  rw [mkavl_add_rollback_eval hroll]
  simp only [List.map_cons, List.map_append, List.map_map, List.map_singleton]
  have hmapD : pre.map ((fun idx =>
      ({ cmp := idx.cmp, tree := (avl_delete idx.cmp x idx.tree).2 } :
        AvlIdx α)) ∘ (fun i =>
      ({ cmp := i.cmp, tree := (avl_insert i.cmp x i.tree).2 } :
        AvlIdx α))) = pre := by
    have hc : ∀ i ∈ pre, ((fun idx =>
        ({ cmp := idx.cmp, tree := (avl_delete idx.cmp x idx.tree).2 } :
          AvlIdx α)) ∘ (fun i =>
        ({ cmp := i.cmp, tree := (avl_insert i.cmp x i.tree).2 } :
          AvlIdx α))) i = i := by
      intro i hi
      simp only [Function.comp_apply]
      rw [avl_delete_insert_cancel (hstrict i (hpm i hi))
        (hbst i (hpm i hi)) (hpre_not i hi)]
    rw [List.map_congr_left hc]
    simp
  rw [hmapD, hcancel0]
  simp

theorem mkavl_remove_oosync_not_mem0 [DecidableEq α] {t : MkavlTree α}
    {x : α} {idx0 idxJ : AvlIdx α} {pre post : List (AvlIdx α)}
    (harr : t.avl_tree_array = idx0 :: pre ++ idxJ :: post)
    (hstrict : ∀ idx ∈ t.avl_tree_array, StrictCmp idx.cmp)
    (hbst : ∀ idx ∈ t.avl_tree_array, IsBST idx.cmp idx.tree)
    (hpre : ∀ idx ∈ pre, (x ∈ idx.tree.inorder ↔ x ∈ idx0.tree.inorder))
    (hmem0 : x ∉ idx0.tree.inorder) (hJ : x ∈ idxJ.tree.inorder) :
    mkavl_remove (some t) (some x) true =
      some (.eoosync,
            some { t with avl_tree_array :=
                     idx0 :: pre ++
                       ({ cmp := idxJ.cmp,
                          tree := (avl_delete idxJ.cmp x idxJ.tree).2 }
                         :: post) },
            none) := by
  have h0 : idx0 ∈ t.avl_tree_array := by
    rw [harr]; exact List.mem_cons_self _ _
  have hJm : idxJ ∈ t.avl_tree_array := by
    rw [harr]
    exact List.mem_cons_of_mem _
      (List.mem_append.2 (Or.inr (List.mem_cons_self _ _)))
  have hpm : ∀ idx ∈ pre, idx ∈ t.avl_tree_array := by
    intro idx hi
    rw [harr]
    exact List.mem_cons_of_mem _ (List.mem_append.2 (Or.inl hi))
  have hpre_not : ∀ idx ∈ pre, x ∉ idx.tree.inorder := by
    intro idx hi hc
    exact hmem0 ((hpre idx hi).1 hc)
  have hdel0 := avl_delete_not_mem (hstrict idx0 h0) (hbst idx0 h0) hmem0
  have hpre_each : ∀ idx ∈ pre,
      avl_delete idx.cmp x idx.tree = (none, idx.tree) := by
    intro idx hi
    exact avl_delete_not_mem (hstrict idx (hpm idx hi))
      (hbst idx (hpm idx hi)) (hpre_not idx hi)
  have hprescan : ∀ idx ∈ pre,
      (avl_delete idx.cmp x idx.tree).1 = none := by
    intro idx hi
    rw [hpre_each idx hi]
  have hJne : (avl_delete idxJ.cmp x idxJ.tree).1 ≠ none := by
    rw [(avl_delete_mem (hstrict idxJ hJm) (hbst idxJ hJm) hJ).1]
    simp
  have hmap : pre.map (fun idx =>
      ({ cmp := idx.cmp, tree := (avl_delete idx.cmp x idx.tree).2 } :
        AvlIdx α)) = pre := by
    have hc : ∀ idx ∈ pre,
        ({ cmp := idx.cmp, tree := (avl_delete idx.cmp x idx.tree).2 } :
          AvlIdx α) = idx := by
      intro idx hi
      rw [hpre_each idx hi]
    rw [List.map_congr_left hc]
    simp
  rw [mkavl_remove_eval harr]
  simp only [hdel0, List.append_eq]
  rw [mkavl_remove_scan_mismatch hprescan hJne]
  simp only [hmap, Bool.false_eq_true, if_false]
  rw [List.cons_append, List.append_assoc, List.singleton_append]
  rfl

theorem mkavl_remove_oosync_mem0 [DecidableEq α] {t : MkavlTree α}
    {x : α} {idx0 idxJ : AvlIdx α} {pre post : List (AvlIdx α)}
    (harr : t.avl_tree_array = idx0 :: pre ++ idxJ :: post)
    (hstrict : ∀ idx ∈ t.avl_tree_array, StrictCmp idx.cmp)
    (hbst : ∀ idx ∈ t.avl_tree_array, IsBST idx.cmp idx.tree)
    (hpre : ∀ idx ∈ pre, (x ∈ idx.tree.inorder ↔ x ∈ idx0.tree.inorder))
    (hmem0 : x ∈ idx0.tree.inorder) (hJ : x ∉ idxJ.tree.inorder) :
    mkavl_remove (some t) (some x) true =
      some (.eoosync,
            some { t with avl_tree_array :=
                     { cmp := idx0.cmp,
                       tree := (avl_insert idx0.cmp x
                                 (avl_delete idx0.cmp x idx0.tree).2).2 } ::
                       pre.map (fun i =>
                         { cmp := i.cmp,
                           tree := (avl_insert i.cmp x
                                     (avl_delete i.cmp x i.tree).2).2 })
                       ++ ({ cmp := idxJ.cmp,
                             tree := (avl_insert idxJ.cmp x idxJ.tree).2 }
                           :: post) },
            none) := by
  have h0 : idx0 ∈ t.avl_tree_array := by
    rw [harr]; exact List.mem_cons_self _ _
  have hJm : idxJ ∈ t.avl_tree_array := by
    rw [harr]
    exact List.mem_cons_of_mem _
      (List.mem_append.2 (Or.inr (List.mem_cons_self _ _)))
  have hpm : ∀ idx ∈ pre, idx ∈ t.avl_tree_array := by
    intro idx hi
    rw [harr]
    exact List.mem_cons_of_mem _ (List.mem_append.2 (Or.inl hi))
  have hpre_mem : ∀ idx ∈ pre, x ∈ idx.tree.inorder := by
    intro idx hi
    exact (hpre idx hi).2 hmem0
  have hdel0_1 : (avl_delete idx0.cmp x idx0.tree).1 = some x :=
    (avl_delete_mem (hstrict idx0 h0) (hbst idx0 h0) hmem0).1
  have hprescan : ∀ idx ∈ pre,
      (avl_delete idx.cmp x idx.tree).1 = some x := by
    intro idx hi
    exact (avl_delete_mem (hstrict idx (hpm idx hi)) (hbst idx (hpm idx hi))
      (hpre_mem idx hi)).1
  have hJdel := avl_delete_not_mem (hstrict idxJ hJm) (hbst idxJ hJm) hJ
  have hJne : (avl_delete idxJ.cmp x idxJ.tree).1 ≠ some x := by
    rw [hJdel]
    simp
  have hres0 := avl_insert_delete_restore (hstrict idx0 h0) (hbst idx0 h0)
    hmem0
  have hroll : ∀ idx ∈
      (({ cmp := idx0.cmp, tree := (avl_delete idx0.cmp x idx0.tree).2 } :
          AvlIdx α) ::
        (pre.map (fun i =>
          ({ cmp := i.cmp, tree := (avl_delete i.cmp x i.tree).2 } :
            AvlIdx α)) ++
         [{ cmp := idxJ.cmp, tree := idxJ.tree }])),
      (avl_insert idx.cmp x idx.tree).1 = none := by
    intro idx hi
    rcases List.mem_cons.1 hi with h | h
    · subst h
      simp only
      exact hres0.1
    · rcases List.mem_append.1 h with h | h
      · rcases List.mem_map.1 h with ⟨i, hi2, hEq⟩
        subst hEq
        simp only
        exact (avl_insert_delete_restore (hstrict i (hpm i hi2))
          (hbst i (hpm i hi2)) (hpre_mem i hi2)).1
      · have hEq := List.mem_singleton.1 h
        subst hEq
        simp only
        exact (avl_insert_not_mem (hstrict idxJ hJm) (hbst idxJ hJm) hJ).1
  rw [mkavl_remove_eval harr]
  simp only [hdel0_1, List.append_eq]
  rw [mkavl_remove_scan_mismatch hprescan hJne]
  simp only [hJdel, Bool.false_eq_true, if_false]
  rw [mkavl_remove_rollback_eval hroll]
  simp only [List.map_cons, List.map_append, List.map_map, List.map_singleton,
             List.map_nil, List.cons_append, List.append_assoc,
             List.nil_append]
  rfl

theorem toggle_mem_insert (SC : StrictCmp cmp) {J : AvlTree α} {x : α}
    (hb : IsBST cmp J) (hx : x ∉ J.inorder) (y : α) :
    y ∈ (avl_insert cmp x J).2.inorder ↔
      ((y ≠ x ∧ y ∈ J.inorder) ∨ (y = x ∧ x ∉ J.inorder)) := by
  rw [avl_insert_mem_iff SC hb hx y]
  constructor
  · intro h
    rcases h with h | h
    · exact Or.inr ⟨h, hx⟩
    · by_cases hyx : y = x
      · exact Or.inr ⟨hyx, hx⟩
      · exact Or.inl ⟨hyx, h⟩
  · intro h
    rcases h with ⟨_, h⟩ | ⟨h, _⟩
    · exact Or.inr h
    · exact Or.inl h

theorem toggle_mem_delete (SC : StrictCmp cmp) {J : AvlTree α} {x : α}
    (hb : IsBST cmp J) (hx : x ∈ J.inorder) (y : α) :
    y ∈ (avl_delete cmp x J).2.inorder ↔
      ((y ≠ x ∧ y ∈ J.inorder) ∨ (y = x ∧ x ∉ J.inorder)) := by
  rw [avl_delete_mem_iff SC hb hx y]
  constructor
  · intro h
    exact Or.inl ⟨h.2, h.1⟩
  · intro h
    rcases h with ⟨h1, h2⟩ | ⟨h1, h2⟩
    · exact ⟨h2, h1⟩
    · exact absurd hx h2

/-- C4 (amended): whenever the indices disagree about the
pre-existing-or-null (respectively removed-or-null) result — index 0 and
the indices before the mismatching index J agree on the item's presence
while index J differs — mkavl_add and mkavl_remove return OutOfSync with
the live item count and the out-parameter (null) unchanged, and the
attempted rollback restores the original contents of every index other
than J; index J itself is left with the item's membership toggled
(removed if it was present, present if it was absent) rather than as it
was before the call. -/
theorem C4_oosync_rollback [DecidableEq α] (t : MkavlTree α) (x : α)
    (idx0 idxJ : AvlIdx α) (pre post : List (AvlIdx α))
    (harr : t.avl_tree_array = idx0 :: pre ++ idxJ :: post)
    (hstrict : ∀ idx ∈ t.avl_tree_array, StrictCmp idx.cmp)
    (hbst : ∀ idx ∈ t.avl_tree_array, IsBST idx.cmp idx.tree)
    (hpre : ∀ idx ∈ pre, (x ∈ idx.tree.inorder ↔ x ∈ idx0.tree.inorder))
    (hJ : ¬ (x ∈ idxJ.tree.inorder ↔ x ∈ idx0.tree.inorder)) :
    (∃ idx0' pre' idxJ',
       mkavl_add (some t) (some x) true =
         some (.eoosync,
               some { t with
                      avl_tree_array := idx0' :: pre' ++ idxJ' :: post },
               none) ∧
       idx0'.tree.inorder = idx0.tree.inorder ∧
       pre'.map (fun idx => idx.tree.inorder) =
         pre.map (fun idx => idx.tree.inorder) ∧
       (∀ y, y ∈ idxJ'.tree.inorder ↔
          ((y ≠ x ∧ y ∈ idxJ.tree.inorder) ∨
           (y = x ∧ x ∉ idxJ.tree.inorder)))) ∧
    (∃ idx0' pre' idxJ',
       mkavl_remove (some t) (some x) true =
         some (.eoosync,
               some { t with
                      avl_tree_array := idx0' :: pre' ++ idxJ' :: post },
               none) ∧
       idx0'.tree.inorder = idx0.tree.inorder ∧
       pre'.map (fun idx => idx.tree.inorder) =
         pre.map (fun idx => idx.tree.inorder) ∧
       (∀ y, y ∈ idxJ'.tree.inorder ↔
          ((y ≠ x ∧ y ∈ idxJ.tree.inorder) ∨
           (y = x ∧ x ∉ idxJ.tree.inorder)))) := by
  have h0 : idx0 ∈ t.avl_tree_array := by
    rw [harr]; exact List.mem_cons_self _ _
  have hJm : idxJ ∈ t.avl_tree_array := by
    rw [harr]
    exact List.mem_cons_of_mem _
      (List.mem_append.2 (Or.inr (List.mem_cons_self _ _)))
  have hpm : ∀ idx ∈ pre, idx ∈ t.avl_tree_array := by
    intro idx hi
    rw [harr]
    exact List.mem_cons_of_mem _ (List.mem_append.2 (Or.inl hi))
  by_cases hmem0 : x ∈ idx0.tree.inorder
  · have hJx : x ∉ idxJ.tree.inorder := by
      intro hc
      exact hJ (iff_of_true hc hmem0)
    constructor
    · refine ⟨idx0, pre,
        { cmp := idxJ.cmp, tree := (avl_insert idxJ.cmp x idxJ.tree).2 },
        mkavl_add_oosync_mem0 harr hstrict hbst hpre hmem0 hJx, rfl, rfl, ?_⟩
      exact toggle_mem_insert (hstrict idxJ hJm) (hbst idxJ hJm) hJx
    · refine ⟨{ cmp := idx0.cmp,
                tree := (avl_insert idx0.cmp x
                          (avl_delete idx0.cmp x idx0.tree).2).2 },
        pre.map (fun i =>
          { cmp := i.cmp,
            tree := (avl_insert i.cmp x (avl_delete i.cmp x i.tree).2).2 }),
        { cmp := idxJ.cmp, tree := (avl_insert idxJ.cmp x idxJ.tree).2 },
        mkavl_remove_oosync_mem0 harr hstrict hbst hpre hmem0 hJx, ?_, ?_, ?_⟩
      · exact (avl_insert_delete_restore (hstrict idx0 h0) (hbst idx0 h0)
          hmem0).2
      · rw [List.map_map]
        refine List.map_congr_left ?_
        intro i hi
        simp only [Function.comp_apply]
        exact (avl_insert_delete_restore (hstrict i (hpm i hi))
          (hbst i (hpm i hi)) ((hpre i hi).2 hmem0)).2
      · exact toggle_mem_insert (hstrict idxJ hJm) (hbst idxJ hJm) hJx
  · have hJx : x ∈ idxJ.tree.inorder := by
      by_contra hc
      exact hJ (iff_of_false hc hmem0)
    constructor
    · refine ⟨idx0, pre,
        { cmp := idxJ.cmp, tree := (avl_delete idxJ.cmp x idxJ.tree).2 },
        mkavl_add_oosync_not_mem0 harr hstrict hbst hpre hmem0 hJx,
        rfl, rfl, ?_⟩
      exact toggle_mem_delete (hstrict idxJ hJm) (hbst idxJ hJm) hJx
    · refine ⟨idx0, pre,
        { cmp := idxJ.cmp, tree := (avl_delete idxJ.cmp x idxJ.tree).2 },
        mkavl_remove_oosync_not_mem0 harr hstrict hbst hpre hmem0 hJx,
        rfl, rfl, ?_⟩
      exact toggle_mem_delete (hstrict idxJ hJm) (hbst idxJ hJm) hJx

/-- Counterexample to C4 as stated: on the desynchronized two-index tree
whose index 1 holds the item 5 while index 0 does not, mkavl_add of 5
detects the mismatch and returns OutOfSync, but its rollback deletes the
pre-existing item 5 from index 1, so index 1 is not left as it was before
the call. -/
theorem C4_oosync_rollback_counterexample :
    (mkavl_add (some exTreeDesync) (some 5) true).map
        (fun r => (r.1,
          Option.map (fun u => u.avl_tree_array.map (fun idx => idx.tree))
            r.2.1,
          r.2.2)) =
      some (.eoosync, some [AvlTree.nil, AvlTree.nil], none) ∧
    exTreeDesync.avl_tree_array.map (fun idx => idx.tree) =
      [.nil, .node .nil 5 .nil] ∧
    ([AvlTree.nil, AvlTree.nil] : List (AvlTree Nat)) ≠
      [.nil, .node .nil 5 .nil] :=
  ⟨rfl, rfl, by decide⟩

/-- Witness for the amended C4 at a concrete input: adding the item 5 to
the desynchronized two-index tree. -/
theorem C4_oosync_rollback_witness :
    ∃ idx0' pre' idxJ',
      mkavl_add (some exTreeDesync) (some (5 : Nat)) true =
        some (.eoosync,
              some { exTreeDesync with
                     avl_tree_array := idx0' :: pre' ++ idxJ' :: [] },
              none) ∧
      idx0'.tree.inorder =
        (AvlIdx.tree { cmp := natCmp, tree := .nil }).inorder ∧
      pre'.map (fun idx => idx.tree.inorder) =
        ([] : List (AvlIdx Nat)).map (fun idx => idx.tree.inorder) ∧
      (∀ y, y ∈ idxJ'.tree.inorder ↔
         ((y ≠ 5 ∧ y ∈ (AvlTree.node .nil 5 .nil : AvlTree Nat).inorder) ∨
          (y = 5 ∧ (5 : Nat) ∉ (AvlTree.node .nil 5 .nil :
            AvlTree Nat).inorder))) :=
  (C4_oosync_rollback exTreeDesync 5 { cmp := natCmp, tree := .nil }
    { cmp := natCmp, tree := .node .nil 5 .nil } [] [] rfl
    (by
      intro idx hidx
      simp only [exTreeDesync, List.mem_cons, List.mem_singleton] at hidx
      rcases hidx with h | h | h
      · subst h; exact natCmp_strict
      · subst h; exact natCmp_strict
      · simp at h)
    (by
      intro idx hidx
      simp only [exTreeDesync, List.mem_cons, List.mem_singleton] at hidx
      rcases hidx with h | h | h
      · subst h; simp
      · subst h; simp [IsBST]
      · simp at h)
    (by intro idx hidx; simp at hidx)
    (by simp)).1

/-- C3: on a synchronized tree, mkavl_add returns the pre-existing item
exactly when the indices already contain an item comparing equal to the
one being added (null otherwise), and the live item count increments
exactly once (regardless of the number of indices) precisely when the
returned existing item is null; consequently, inserting a list of N items
into a fresh empty tree yields exactly N minus U non-null existing-item
results and a final count of U, where U is the number of pairwise
distinct items. -/
theorem C3_add_count_semantics [DecidableEq α] :
    (∀ (u : MkavlTree α) (x : α) (idx : AvlIdx α), Synced u →
       idx ∈ u.avl_tree_array →
       ∃ u', mkavl_add (some u) (some x) true =
           some (.success, some u',
                 if x ∈ idx.tree.inorder then some x else none) ∧
         u'.item_count =
           (if x ∈ idx.tree.inorder then u.item_count
            else u.item_count + 1)) ∧
    (∀ (u : MkavlTree α), Synced u → u.item_count = 0 → ∀ xs : List α,
       ∃ uf res, mkavl_add_all u xs = some (uf, res) ∧
         uf.item_count = xs.dedup.length ∧
         (res.filter (fun e => e.isSome)).length =
           xs.length - xs.dedup.length) := by
  constructor
  · intro u x idx hs hidx
    rcases List.exists_cons_of_ne_nil hs.ne with ⟨idx0, rest, harr⟩
    have h0 : idx0 ∈ u.avl_tree_array := by
      rw [harr]; exact List.mem_cons_self _ _
    have hiff : x ∈ idx.tree.inorder ↔ x ∈ idx0.tree.inorder :=
      hs.mem_iff idx hidx idx0 h0 x
    by_cases hmem : x ∈ idx0.tree.inorder
    · refine ⟨u, ?_, ?_⟩
      · rw [mkavl_add_synced_mem harr hs hmem]
        rw [if_pos (hiff.2 hmem)]
      · rw [if_pos (hiff.2 hmem)]
    · rcases mkavl_add_synced_not_mem harr hs hmem with
        ⟨u', hEq, _, hcnt, _, _, _⟩
      refine ⟨u', ?_, ?_⟩
      · rw [hEq, if_neg (fun hc => hmem (hiff.1 hc))]
      · rw [hcnt, if_neg (fun hc => hmem (hiff.1 hc))]
  · intro u hs hcnt xs
    rcases List.exists_cons_of_ne_nil hs.ne with ⟨idx0, rest, harr⟩
    have h0 : idx0 ∈ u.avl_tree_array := by
      rw [harr]; exact List.mem_cons_self _ _
    have hemp : idx0.tree.inorder = [] := by
      have := hs.count idx0 h0
      rw [hcnt] at this
      exact List.length_eq_zero.1 this
    rcases mkavl_add_all_spec hs harr xs with ⟨uf, res, hfold, hsf, hsets, hcard⟩
    rcases List.exists_cons_of_ne_nil hsf.ne with ⟨idxf, restf, harrf⟩
    have hf : idxf ∈ uf.avl_tree_array := by
      rw [harrf]; exact List.mem_cons_self _ _
    have hndf : idxf.tree.inorder.Nodup :=
      (hsf.bst idxf hf).nodup (hsf.strict idxf hf)
    have hcountf : uf.item_count = xs.dedup.length := by
      have h1 := hsf.count idxf hf
      have h2 := hsets idxf hf
      rw [hemp] at h2
      simp only [List.toFinset_nil, Finset.empty_union] at h2
      have h3 : idxf.tree.inorder.toFinset.card = xs.toFinset.card := by
        rw [h2]
      rw [List.toFinset_card_of_nodup hndf] at h3
      rw [← h1, h3, List.card_toFinset]
    refine ⟨uf, res, hfold, hcountf, ?_⟩
    rw [hemp] at hcard
    simp only [List.toFinset_nil, Finset.empty_union, Finset.card_empty,
               Nat.add_zero] at hcard
    rw [List.card_toFinset] at hcard
    omega

/-- Witness for C3 at a concrete input: inserting the items 5, 5, 3 into
the empty two-index tree gives one non-null duplicate result and a final
count of 2. -/
theorem C3_add_count_semantics_witness :
    ∃ (uf : MkavlTree Nat) (res : List (Option Nat)),
      mkavl_add_all exTreeEmpty2 [5, 5, 3] = some (uf, res) ∧
        uf.item_count = ([5, 5, 3] : List Nat).dedup.length ∧
        (res.filter (fun e => e.isSome)).length =
          ([5, 5, 3] : List Nat).length - ([5, 5, 3] : List Nat).dedup.length :=
  (C3_add_count_semantics).2 exTreeEmpty2 synced_exTreeEmpty2 rfl [5, 5, 3]

/-! ## The mkavl_delete traversal loop -/

theorem avl_delete_head_inorder (SC : StrictCmp cmp) {t : AvlTree α}
    {x : α} {tl : List α} (hb : IsBST cmp t) (hhead : t.inorder = x :: tl) :
    (avl_delete cmp x t).2.inorder = tl := by
  have hx : x ∈ t.inorder := by
    rw [hhead]
    exact List.mem_cons_self _ _
  rcases avl_delete_mem SC hb hx with ⟨_, hb', hperm⟩
  rw [hhead] at hperm
  have hp2 : ((avl_delete cmp x t).2.inorder).Perm tl :=
    hperm.cons_inv.symm
  haveI : IsAntisymm α (fun a b => cmp a b < 0) :=
    ⟨fun a b h1 h2 => absurd h2 (SC.asymm h1)⟩
  have hst : t.inorder.Pairwise (fun a b => cmp a b < 0) := hb.sorted SC
  rw [hhead, List.pairwise_cons] at hst
  exact List.eq_of_perm_of_sorted hp2 (hb'.sorted SC) hst.2

theorem mkavl_delete_all_idx_eval [DecidableEq α] {x : α}
    {l : List (AvlIdx α)}
    (h : ∀ idx ∈ l, (avl_delete idx.cmp x idx.tree).1 ≠ none) :
    mkavl_delete_all_idx x l =
      some (l.map (fun idx =>
        { cmp := idx.cmp, tree := (avl_delete idx.cmp x idx.tree).2 })) := by
  induction l with
  | nil => rfl
  | cons idx l ih =>
    rw [mkavl_delete_all_idx]
    cases hd : (avl_delete idx.cmp x idx.tree).1 with
    | none => exact absurd hd (h idx (List.mem_cons_self _ _))
    | some d =>
      simp only [ih (fun i hi => h i (List.mem_cons_of_mem _ hi)),
                 Option.map_some', List.map_cons]

theorem mkavl_delete_loop_spec [DecidableEq α] (item_fn : α → mkavl_rc_e)
    {idx0 : AvlIdx α} {rest : List (AvlIdx α)}
    (hstrict : ∀ idx ∈ (idx0 :: rest), StrictCmp idx.cmp)
    (hbst : ∀ idx ∈ (idx0 :: rest), IsBST idx.cmp idx.tree)
    (hmem : ∀ idx ∈ (idx0 :: rest), ∀ y,
      y ∈ idx.tree.inorder ↔ y ∈ idx0.tree.inorder)
    {fuel : Nat} (hfuel : idx0.tree.inorder.length ≤ fuel)
    (retval : mkavl_rc_e) (acc : List α) :
    ∃ trees',
      mkavl_delete_loop (some item_fn) fuel (idx0 :: rest) retval acc =
        some (List.foldl rc_accum retval (idx0.tree.inorder.map item_fn),
              acc ++ idx0.tree.inorder, trees') := by
  induction fuel generalizing idx0 rest retval acc with
  | zero =>
    cases hin : idx0.tree.inorder with
    | nil =>
      refine ⟨idx0 :: rest, ?_⟩
      rw [mkavl_delete_loop]
      simp only [List.head?_cons, avl_t_first, hin, List.head?_nil,
                 List.map_nil, List.foldl_nil, List.append_nil]
    | cons x tl =>
      rw [hin] at hfuel
      simp at hfuel
  | succ f ih =>
    cases hin : idx0.tree.inorder with
    | nil =>
      refine ⟨idx0 :: rest, ?_⟩
      rw [mkavl_delete_loop]
      simp only [List.head?_cons, avl_t_first, hin, List.head?_nil,
                 List.map_nil, List.foldl_nil, List.append_nil]
    | cons x tl =>
      have hx0 : x ∈ idx0.tree.inorder := by
        rw [hin]
        exact List.mem_cons_self _ _
      have hxall : ∀ idx ∈ (idx0 :: rest), x ∈ idx.tree.inorder := by
        intro idx hi
        exact (hmem idx hi x).2 hx0
      have hdel : ∀ idx ∈ (idx0 :: rest),
          (avl_delete idx.cmp x idx.tree).1 ≠ none := by
        intro idx hi
        rw [(avl_delete_mem (hstrict idx hi) (hbst idx hi) (hxall idx hi)).1]
        simp
      have hd0 : (avl_delete idx0.cmp x idx0.tree).2.inorder = tl :=
        avl_delete_head_inorder (hstrict idx0 (List.mem_cons_self _ _))
          (hbst idx0 (List.mem_cons_self _ _)) hin
      -- entry characterization for the trees after the per-item deletion
      have hentry : ∀ idx' ∈
          (({ cmp := idx0.cmp, tree := (avl_delete idx0.cmp x idx0.tree).2 } :
              AvlIdx α) ::
            rest.map (fun idx =>
              ({ cmp := idx.cmp, tree := (avl_delete idx.cmp x idx.tree).2 } :
                AvlIdx α))),
          ∃ idx ∈ (idx0 :: rest),
            idx' = { cmp := idx.cmp,
                     tree := (avl_delete idx.cmp x idx.tree).2 } := by
        intro idx' hidx'
        rcases List.mem_cons.1 hidx' with h | h
        · exact ⟨idx0, List.mem_cons_self _ _, h⟩
        · rcases List.mem_map.1 h with ⟨idx, hidx, hEq⟩
          exact ⟨idx, List.mem_cons_of_mem _ hidx, hEq.symm⟩
      have hstrict' : ∀ idx' ∈
          (({ cmp := idx0.cmp, tree := (avl_delete idx0.cmp x idx0.tree).2 } :
              AvlIdx α) ::
            rest.map (fun idx =>
              ({ cmp := idx.cmp, tree := (avl_delete idx.cmp x idx.tree).2 } :
                AvlIdx α))), StrictCmp idx'.cmp := by
        intro idx' hidx'
        rcases hentry idx' hidx' with ⟨idx, hi, hEq⟩
        subst hEq
        exact hstrict idx hi
      have hbst' : ∀ idx' ∈
          (({ cmp := idx0.cmp, tree := (avl_delete idx0.cmp x idx0.tree).2 } :
              AvlIdx α) ::
            rest.map (fun idx =>
              ({ cmp := idx.cmp, tree := (avl_delete idx.cmp x idx.tree).2 } :
                AvlIdx α))), IsBST idx'.cmp idx'.tree := by
        intro idx' hidx'
        rcases hentry idx' hidx' with ⟨idx, hi, hEq⟩
        subst hEq
        exact (avl_delete_mem (hstrict idx hi) (hbst idx hi)
          (hxall idx hi)).2.1
      have hmem' : ∀ idx' ∈
          (({ cmp := idx0.cmp, tree := (avl_delete idx0.cmp x idx0.tree).2 } :
              AvlIdx α) ::
            rest.map (fun idx =>
              ({ cmp := idx.cmp, tree := (avl_delete idx.cmp x idx.tree).2 } :
                AvlIdx α))), ∀ y,
          y ∈ idx'.tree.inorder ↔
            y ∈ (avl_delete idx0.cmp x idx0.tree).2.inorder := by
        intro idx' hidx' y
        rcases hentry idx' hidx' with ⟨idx, hi, hEq⟩
        subst hEq
        rw [avl_delete_mem_iff (hstrict idx hi) (hbst idx hi) (hxall idx hi) y,
            avl_delete_mem_iff (hstrict idx0 (List.mem_cons_self _ _))
              (hbst idx0 (List.mem_cons_self _ _)) hx0 y,
            hmem idx hi y]
      have hfuel' :
          (avl_delete idx0.cmp x idx0.tree).2.inorder.length ≤ f := by
        rw [hd0]
        rw [hin] at hfuel
        simp only [List.length_cons] at hfuel
        omega
      rcases ih hstrict' hbst' hmem' hfuel' (rc_accum retval (item_fn x))
          (acc ++ [x]) with ⟨trees', hloop⟩
      refine ⟨trees', ?_⟩
      rw [mkavl_delete_loop]
      simp only [List.head?_cons, avl_t_first, hin, List.head?_cons]
      rw [mkavl_delete_all_idx_eval hdel]
      simp only [List.map_cons]
      rw [hloop, hd0]
      simp only [List.map_cons, List.foldl_cons, List.append_assoc,
                 List.singleton_append]

theorem mkavl_delete_run [DecidableEq α] {t : MkavlTree α} (hs : Synced t)
    {idx0 : AvlIdx α} {rest : List (AvlIdx α)}
    (harr : t.avl_tree_array = idx0 :: rest)
    (hcnt : t.item_count ≤ MKAVL_RUNAWAY_SANITY + 1)
    (f : α → mkavl_rc_e) (g : Option Unit → mkavl_rc_e) :
    mkavl_delete (some t) (some f) (some g) =
      some (rc_accum
              (List.foldl rc_accum .success (idx0.tree.inorder.map f))
              (g t.context),
            idx0.tree.inorder, 1) := by
  have h0 : idx0 ∈ t.avl_tree_array := by
    rw [harr]; exact List.mem_cons_self _ _
  have hvalid := mkavl_tree_is_valid_of_cons harr
  have hstrict : ∀ idx ∈ (idx0 :: rest), StrictCmp idx.cmp := by
    intro idx hi
    exact hs.strict idx (by rw [harr]; exact hi)
  have hbst : ∀ idx ∈ (idx0 :: rest), IsBST idx.cmp idx.tree := by
    intro idx hi
    exact hs.bst idx (by rw [harr]; exact hi)
  have hmem : ∀ idx ∈ (idx0 :: rest), ∀ y,
      y ∈ idx.tree.inorder ↔ y ∈ idx0.tree.inorder := by
    intro idx hi y
    exact hs.mem_iff idx (by rw [harr]; exact hi) idx0 h0 y
  have hfuel : idx0.tree.inorder.length ≤ MKAVL_RUNAWAY_SANITY + 1 := by
    rw [hs.count idx0 h0]
    exact hcnt
  rcases mkavl_delete_loop_spec f hstrict hbst hmem hfuel .success [] with
    ⟨trees', hloop⟩
  rw [mkavl_delete]
  rw [hvalid]
  simp only [not_true, if_false, Bool.true_eq_false, ite_false]
  rw [harr, hloop]
  simp only [List.nil_append]

theorem foldl_rc_accum_eq (l : List mkavl_rc_e) (r0 : mkavl_rc_e) :
    List.foldl rc_accum r0 l =
      ((l.filter (fun rc => mkavl_rc_e_is_notok rc)).getLast?).getD r0 := by
  induction l generalizing r0 with
  | nil => rfl
  | cons a l ih =>
    rw [List.foldl_cons, ih, List.filter_cons]
    by_cases ha : mkavl_rc_e_is_notok a = true
    · rw [if_pos ha]
      have haccum : rc_accum r0 a = a := by
        unfold rc_accum
        rw [if_pos ha]
      rw [haccum]
      cases hfl : l.filter (fun rc => mkavl_rc_e_is_notok rc) with
      | nil => rfl
      | cons b l2 =>
        rw [List.getLast?_cons_cons]
        have hne : (b :: l2).getLast?.isSome := by
          rw [List.getLast?_isSome]
          simp
        cases ho : (b :: l2).getLast? with
        | none => rw [ho] at hne; simp at hne
        | some y => rfl
    · rw [if_neg ha]
      have haccum : rc_accum r0 a = r0 := by
        unfold rc_accum
        rw [if_neg ha]
      rw [haccum]

theorem rc_accum_last_notok (L : List mkavl_rc_e) (b : mkavl_rc_e) :
    rc_accum (mkavl_last_notok L) b = mkavl_last_notok (L ++ [b]) := by
  unfold mkavl_last_notok rc_accum
  rw [List.filter_append]
  by_cases hb : mkavl_rc_e_is_notok b = true
  · rw [if_pos hb]
    have hfb : [b].filter (fun rc => mkavl_rc_e_is_notok rc) = [b] := by
      rw [List.filter_cons, if_pos hb]
      rfl
    rw [hfb, List.getLast?_concat]
    rfl
  · rw [if_neg hb]
    have hfb : [b].filter (fun rc => mkavl_rc_e_is_notok rc) = [] := by
      rw [List.filter_cons, if_neg hb]
      rfl
    rw [hfb, List.append_nil]

/-- C5: on a synchronized tree holding U items (within the runaway
bound), mkavl_delete invokes the item finalizer exactly U times — once
per logical item, not once per index — invokes the context-teardown
callback exactly once (the context may be NULL: it is quantified,
including none), and completes successfully on a tree holding zero items
when the callbacks succeed. -/
theorem C5_delete_callback_counts [DecidableEq α] (t : MkavlTree α)
    (hs : Synced t) (hcnt : t.item_count ≤ MKAVL_RUNAWAY_SANITY + 1)
    (f : α → mkavl_rc_e) (g : Option Unit → mkavl_rc_e) :
    (∃ r items,
       mkavl_delete (some t) (some f) (some g) = some (r, items, 1) ∧
         items.length = t.item_count) ∧
    (t.item_count = 0 →
       mkavl_delete (some t) (some f) (some g) =
         some (rc_accum .success (g t.context), [], 1)) := by
  rcases List.exists_cons_of_ne_nil hs.ne with ⟨idx0, rest, harr⟩
  have h0 : idx0 ∈ t.avl_tree_array := by
    rw [harr]; exact List.mem_cons_self _ _
  have hrun := mkavl_delete_run hs harr hcnt f g
  constructor
  · exact ⟨_, idx0.tree.inorder, hrun, hs.count idx0 h0⟩
  · intro hz
    have hemp : idx0.tree.inorder = [] := by
      have := hs.count idx0 h0
      rw [hz] at this
      exact List.length_eq_zero.1 this
    rw [hemp] at hrun
    simpa using hrun

/-- Witness for C5 at a concrete input: deleting the one-item tree with
an always-succeeding finalizer and teardown callback. -/
theorem C5_delete_callback_counts_witness :
    ∃ r items,
      mkavl_delete (some exTreeOne) (some exItemFnOk)
          (some exDeleteContextFn) = some (r, items, 1) ∧
        items.length = exTreeOne.item_count :=
  (C5_delete_callback_counts exTreeOne synced_exTreeOne (by decide)
    exItemFnOk exDeleteContextFn).1

/-- C8 (amended): when finalizer invocations return non-success codes,
mkavl_delete continues over all remaining items without short-circuiting
(the finalizer is applied to every item of the index, in order), and
the overall return value is the most recent non-success result observed
across the finalizer invocations and the context-teardown callback, or
SUCCESS when every callback succeeded. -/
theorem C8_delete_retval [DecidableEq α] (t : MkavlTree α) (hs : Synced t)
    {idx0 : AvlIdx α} {rest : List (AvlIdx α)}
    (harr : t.avl_tree_array = idx0 :: rest)
    (hcnt : t.item_count ≤ MKAVL_RUNAWAY_SANITY + 1)
    (f : α → mkavl_rc_e) (g : Option Unit → mkavl_rc_e) :
    mkavl_delete (some t) (some f) (some g) =
      some (mkavl_last_notok (idx0.tree.inorder.map f ++ [g t.context]),
            idx0.tree.inorder, 1) := by
  rw [mkavl_delete_run hs harr hcnt f g]
  have h1 : List.foldl rc_accum .success (idx0.tree.inorder.map f) =
      mkavl_last_notok (idx0.tree.inorder.map f) :=
    foldl_rc_accum_eq _ _
  rw [h1, rc_accum_last_notok]

/-- Witness for the amended C8 at a concrete input: deleting the two-item
tree with the finalizer that fails differently on each item. -/
theorem C8_delete_retval_witness :
    mkavl_delete (some exTree12) (some exItemFn) (some exDeleteContextFn) =
      some (mkavl_last_notok
              ((AvlTree.node .nil 1 (.node .nil 2 .nil) :
                 AvlTree Nat).inorder.map exItemFn ++
               [exDeleteContextFn none]),
            (AvlTree.node .nil 1 (.node .nil 2 .nil) :
              AvlTree Nat).inorder, 1) :=
  C8_delete_retval exTree12 synced_exTree12 rfl (by decide) exItemFn
    exDeleteContextFn

/-- Counterexample to C8 as stated: deleting the two-item tree whose
finalizer returns OutOfSync for item 1 and InvalidArgument for item 2
yields an overall return of InvalidArgument (the most recent non-success
result), even though OutOfSync — the severest code observed, a
fatal-grade consistency fault per the specification's error taxonomy —
was returned by an earlier finalizer invocation, so the overall return is
not the worst result observed. -/
theorem C8_delete_retval_counterexample :
    mkavl_delete (some exTree12) (some exItemFn) (some exDeleteContextFn) =
        some (.einval, [1, 2], 1) ∧
      exItemFn 1 = .eoosync ∧
      mkavl_rc_e.eoosync ≠ mkavl_rc_e.einval :=
  ⟨rfl, rfl, by decide⟩

/-! ## mkavl_copy -/

theorem avl_copy_inorder (f : α → α) (t : AvlTree α) :
    (avl_copy f t).inorder = t.inorder.map f := by
  induction t with
  | nil => rfl
  | node l x r ihl ihr =>
    rw [avl_copy, inorder_node, inorder_node, ihl, ihr, List.map_append,
        List.map_cons]

theorem avl_copy_id (t : AvlTree α) : avl_copy id t = t := by
  induction t with
  | nil => rfl
  | node l x r ihl ihr => rw [avl_copy, ihl, ihr, id]

theorem mkavl_copy_insert_list_spec (SC : StrictCmp cmp) (xs : List α) :
    ∀ {t : AvlTree α}, IsBST cmp t →
      IsBST cmp (mkavl_copy_insert_list cmp t xs) ∧
        (∀ y, y ∈ (mkavl_copy_insert_list cmp t xs).inorder ↔
          (y ∈ xs ∨ y ∈ t.inorder)) := by
  induction xs with
  | nil =>
    intro t hb
    exact ⟨hb, by simp [mkavl_copy_insert_list]⟩
  | cons x xs ih =>
    intro t hb
    rw [mkavl_copy_insert_list]
    by_cases hx : x ∈ t.inorder
    · rw [avl_insert_mem SC hb hx]
      rcases ih hb with ⟨h1, h2⟩
      refine ⟨h1, ?_⟩
      intro y
      rw [h2 y, List.mem_cons]
      constructor
      · intro h
        rcases h with h | h
        · exact Or.inl (Or.inr h)
        · exact Or.inr h
      · intro h
        rcases h with h | h
        · rcases h with h | h
          · subst h
            exact Or.inr hx
          · exact Or.inl h
        · exact Or.inr h
    · rcases avl_insert_not_mem SC hb hx with ⟨_, hb', _⟩
      rcases ih hb' with ⟨h1, h2⟩
      refine ⟨h1, ?_⟩
      intro y
      rw [h2 y, avl_insert_mem_iff SC hb hx y, List.mem_cons]
      constructor
      · intro h
        rcases h with h | h | h
        · exact Or.inl (Or.inr h)
        · exact Or.inl (Or.inl h)
        · exact Or.inr h
      · intro h
        rcases h with (h | h) | h
        · exact Or.inr (Or.inl h)
        · exact Or.inl h
        · exact Or.inr (Or.inr h)

/-- C6: for a synchronized source tree with U items, a successful
mkavl_copy applies the copy transform to exactly the U items of index 0
(once per item, not once per index), the new tree's live item count
equals the source count, and for a shallow copy (null transform) the
ascending in-order item sequence of every index of the new tree equals
the one of the corresponding index of the source. -/
theorem C6_copy_fidelity [DecidableEq α] (src : MkavlTree α)
    (hs : Synced src) {idx0 : AvlIdx α} {rest : List (AvlIdx α)}
    (harr : src.avl_tree_array = idx0 :: rest) (use_ctx : Bool)
    (nctx : Option Unit) (ifn : Option (α → mkavl_rc_e))
    (dfn : Option (Option Unit → mkavl_rc_e)) :
    (∀ f : α → α,
       ∃ newt,
         mkavl_copy (some src) true (some f) ifn use_ctx nctx dfn false =
             (.success, some newt, idx0.tree.inorder) ∧
           idx0.tree.inorder.length = src.item_count ∧
           newt.item_count = src.item_count) ∧
    (∃ newt,
       mkavl_copy (some src) true none ifn use_ctx nctx dfn false =
           (.success, some newt, []) ∧
         newt.item_count = src.item_count ∧
         newt.avl_tree_array.map (fun idx => idx.tree.inorder) =
           src.avl_tree_array.map (fun idx => idx.tree.inorder)) := by
  have h0 : idx0 ∈ src.avl_tree_array := by
    rw [harr]; exact List.mem_cons_self _ _
  have hvalid := mkavl_tree_is_valid_of_cons harr
  have hcount0 := hs.count idx0 h0
  constructor
  · intro f
    rw [mkavl_copy]
    rw [hvalid]
    simp only [not_true, if_false, Bool.true_eq_false, Bool.false_eq_true,
               ite_false]
    rw [harr]
    refine ⟨_, rfl, hcount0, ?_⟩
    show avl_count (avl_copy f idx0.tree) = src.item_count
    unfold avl_count
    rw [avl_copy_inorder, List.length_map, hcount0]
  · rw [mkavl_copy]
    rw [hvalid]
    simp only [not_true, if_false, Bool.true_eq_false, Bool.false_eq_true,
               ite_false]
    rw [harr]
    refine ⟨_, rfl, ?_, ?_⟩
    · show avl_count (avl_copy id idx0.tree) = src.item_count
      unfold avl_count
      rw [avl_copy_id, hcount0]
    · show ({ cmp := idx0.cmp, tree := avl_copy id idx0.tree } ::
          rest.map (fun idx =>
            ({ cmp := idx.cmp,
               tree := mkavl_copy_insert_list idx.cmp .nil
                 (avl_copy id idx0.tree).inorder } : AvlIdx α))).map
            (fun idx => idx.tree.inorder) =
        (idx0 :: rest).map (fun idx => idx.tree.inorder)
      rw [avl_copy_id]
      simp only [List.map_cons, List.map_map]
      refine congrArg₂ List.cons rfl ?_
      refine List.map_congr_left ?_
      intro idx hi
      have him : idx ∈ src.avl_tree_array := by
        rw [harr]
        exact List.mem_cons_of_mem _ hi
      simp only [Function.comp_apply]
      rcases mkavl_copy_insert_list_spec (hs.strict idx him)
        idx0.tree.inorder (t := AvlTree.nil) IsBST_nil with ⟨hb', hmem'⟩
      refine inorder_eq_of_mem_iff (hs.strict idx him) hb'
        (hs.bst idx him) ?_
      intro y
      rw [hmem' y]
      simp only [inorder_nil, List.not_mem_nil, or_false]
      exact hs.mem_iff idx0 h0 idx him y

/-- Witness for C6 at a concrete input: a shallow copy of the one-item
two-index tree. -/
theorem C6_copy_fidelity_witness :
    ∃ newt : MkavlTree Nat,
      mkavl_copy (some exTreeOne2) true none none true none none false =
          (.success, some newt, []) ∧
        newt.item_count = exTreeOne2.item_count ∧
        newt.avl_tree_array.map (fun idx => idx.tree.inorder) =
          exTreeOne2.avl_tree_array.map (fun idx => idx.tree.inorder) :=
  (C6_copy_fidelity exTreeOne2 synced_exTreeOne2 rfl true none none none).2

/-- C7: evaluating mkavl_copy at the failing input — a valid one-item
source tree whose index-0 duplication (avl_copy) hits an allocation
failure.  The source jumps to err_exit with rc still SUCCESS from the
successful mkavl_new, mkavl_delete rejects the partial tree (its index-0
AVL pointer is NULL) so nothing is freed and no finalizer runs, and the
call returns SUCCESS with *new_tree_h = NULL — contradicting the claim
that the failure is surfaced as a non-success status and the partial
tree fully deleted. -/
theorem C7_copy_failure_eval :
    mkavl_copy (some exTreeOne) true (none : Option (Nat → Nat)) none true
        none none true = (.success, none, []) := rfl

/-! ## The single-index operations and mkavl_new -/

/-- C9: mkavl_add_key_idx and mkavl_remove_key_idx never change the live
item count, and each returns InvalidArgument — leaving the tree
unchanged — for a null tree handle, a null item, a null out-parameter,
or a key index at or beyond the number of indices. -/
theorem C9_key_idx_frame (α : Type u) :
    ((∀ (t : MkavlTree α) (k : Nat) (item : Option α) (ptr : Bool),
        ∃ t', (mkavl_add_key_idx (some t) k item ptr).2.1 = some t' ∧
          t'.item_count = t.item_count) ∧
     (∀ (k : Nat) (item : Option α) (ptr : Bool),
        mkavl_add_key_idx (none : Option (MkavlTree α)) k item ptr =
          (.einval, none, none)) ∧
     (∀ (tree_h : Option (MkavlTree α)) (k : Nat) (ptr : Bool),
        mkavl_add_key_idx tree_h k none ptr = (.einval, tree_h, none)) ∧
     (∀ (tree_h : Option (MkavlTree α)) (k : Nat) (item : Option α),
        mkavl_add_key_idx tree_h k item false = (.einval, tree_h, none)) ∧
     (∀ (t : MkavlTree α) (k : Nat) (x : α),
        t.avl_tree_array.length ≤ k →
        mkavl_add_key_idx (some t) k (some x) true =
          (.einval, some t, none))) ∧
    ((∀ (t : MkavlTree α) (k : Nat) (item : Option α) (ptr : Bool),
        ∃ t', (mkavl_remove_key_idx (some t) k item ptr).2.1 = some t' ∧
          t'.item_count = t.item_count) ∧
     (∀ (k : Nat) (item : Option α) (ptr : Bool),
        mkavl_remove_key_idx (none : Option (MkavlTree α)) k item ptr =
          (.einval, none, none)) ∧
     (∀ (tree_h : Option (MkavlTree α)) (k : Nat) (ptr : Bool),
        mkavl_remove_key_idx tree_h k none ptr = (.einval, tree_h, none)) ∧
     (∀ (tree_h : Option (MkavlTree α)) (k : Nat) (item : Option α),
        mkavl_remove_key_idx tree_h k item false = (.einval, tree_h, none)) ∧
     (∀ (t : MkavlTree α) (k : Nat) (x : α),
        t.avl_tree_array.length ≤ k →
        mkavl_remove_key_idx (some t) k (some x) true =
          (.einval, some t, none))) := by
  constructor
  · refine ⟨?_, ?_, ?_, ?_, ?_⟩
    · intro t k item ptr
      cases item with
      | none => exact ⟨t, rfl, rfl⟩
      | some x =>
        cases ptr with
        | false => exact ⟨t, rfl, rfl⟩
        | true =>
          rw [mkavl_add_key_idx]
          by_cases hv : mkavl_tree_is_valid (some t) = true
          · rw [hv]
            simp only [not_true, if_false, Bool.true_eq_false, ite_false]
            by_cases hk : k < t.avl_tree_array.length
            · rw [dif_pos hk]
              exact ⟨_, rfl, rfl⟩
            · rw [dif_neg hk]
              exact ⟨t, rfl, rfl⟩
          · have hv' : mkavl_tree_is_valid (some t) = false := by
              cases h : mkavl_tree_is_valid (some t)
              · rfl
              · exact absurd h hv
            rw [hv']
            simp only [Bool.false_eq_true, not_false_iff, if_true, ite_true]
            exact ⟨t, rfl, rfl⟩
    · intro k item ptr
      cases item with
      | none => rfl
      | some x =>
        cases ptr with
        | false => rfl
        | true => rfl
    · intro tree_h k ptr
      rfl
    · intro tree_h k item
      cases item with
      | none => rfl
      | some x => rfl
    · intro t k x hk
      rw [mkavl_add_key_idx]
      by_cases hv : mkavl_tree_is_valid (some t) = true
      · rw [hv]
        simp only [not_true, if_false, Bool.true_eq_false, ite_false]
        rw [dif_neg (by omega)]
      · have hv' : mkavl_tree_is_valid (some t) = false := by
          cases h : mkavl_tree_is_valid (some t)
          · rfl
          · exact absurd h hv
        rw [hv']
        simp only [Bool.false_eq_true, not_false_iff, if_true, ite_true]
  · refine ⟨?_, ?_, ?_, ?_, ?_⟩
    · intro t k item ptr
      cases item with
      | none => exact ⟨t, rfl, rfl⟩
      | some x =>
        cases ptr with
        | false => exact ⟨t, rfl, rfl⟩
        | true =>
          rw [mkavl_remove_key_idx]
          by_cases hv : mkavl_tree_is_valid (some t) = true
          · rw [hv]
            simp only [not_true, if_false, Bool.true_eq_false, ite_false]
            by_cases hk : k < t.avl_tree_array.length
            · rw [dif_pos hk]
              exact ⟨_, rfl, rfl⟩
            · rw [dif_neg hk]
              exact ⟨t, rfl, rfl⟩
          · have hv' : mkavl_tree_is_valid (some t) = false := by
              cases h : mkavl_tree_is_valid (some t)
              · rfl
              · exact absurd h hv
            rw [hv']
            simp only [Bool.false_eq_true, not_false_iff, if_true, ite_true]
            exact ⟨t, rfl, rfl⟩
    · intro k item ptr
      cases item with
      | none => rfl
      | some x =>
        cases ptr with
        | false => rfl
        | true => rfl
    · intro tree_h k ptr
      rfl
    · intro tree_h k item
      cases item with
      | none => rfl
      | some x => rfl
    · intro t k x hk
      rw [mkavl_remove_key_idx]
      by_cases hv : mkavl_tree_is_valid (some t) = true
      · rw [hv]
        simp only [not_true, if_false, Bool.true_eq_false, ite_false]
        rw [dif_neg (by omega)]
      · have hv' : mkavl_tree_is_valid (some t) = false := by
          cases h : mkavl_tree_is_valid (some t)
          · rfl
          · exact absurd h hv
        rw [hv']
        simp only [Bool.false_eq_true, not_false_iff, if_true, ite_true]

/-- Witness for C9 at a concrete input: a single-index add with an
out-of-range index. -/
theorem C9_key_idx_frame_witness :
    mkavl_add_key_idx (some exTreeOne) 3 (some 7) true =
      (.einval, some exTreeOne, none) :=
  (C9_key_idx_frame Nat).1.2.2.2.2 exTreeOne 3 7 (by decide)

/-- C10: mkavl_new given a non-null, non-empty comparator array with a
null entry fails with NoMemory (not InvalidArgument) and leaves the
caller's output handle null.  (The release of the partial allocations is
a heap-level effect with no observable counterpart in the model.) -/
theorem C10_new_null_comparator (α : Type u) :
    ∀ (fns : List (Option (α → α → Int))) (ctx : Option Unit),
      fns ≠ [] → (∃ c ∈ fns, c = none) →
      mkavl_new true (some fns) ctx =
        (.enomem, (none : Option (MkavlTree α))) := by
  intro fns ctx hne hex
  rw [mkavl_new]
  rw [if_neg (fun h => hne (List.length_eq_zero.1 h))]
  have hany : fns.any (fun c => c.isNone) = true := by
    rw [List.any_eq_true]
    rcases hex with ⟨c, hc, hcn⟩
    refine ⟨c, hc, ?_⟩
    rw [hcn]
    rfl
  rw [if_pos hany]

/-- Witness for C10 at a concrete input: a two-entry comparator array
whose second entry is NULL. -/
theorem C10_new_null_comparator_witness :
    mkavl_new true (some [some natCmp, none]) none =
      (.enomem, (none : Option (MkavlTree Nat))) :=
  C10_new_null_comparator Nat [some natCmp, none] none (by simp)
    ⟨none, by simp, rfl⟩

end Mkavl
